import Mathlib

/-!
A verification development for the jsweb request-dispatch core
(src/jsweb/routing.py, src/jsweb/app.py, src/jsweb/middleware.py).

The embedding is shallow: Python dicts become association lists with
overwrite-or-append assignment, exceptions become Except/Option results, and
the compiled route regexes become an alternating literal/parameter matcher
with the backtracking order of the Python re engine on the fragments that
_compile_path emits (greedy character classes try the longest capture first,
the lazy path class the shortest).  The digit class is the set of Unicode
decimal digits (the ten-character Nd blocks of the Unicode database CPython
ships, listed in ndStarts), and the end anchor accepts the end of the input
or a newline standing as its last character, exactly as the dollar anchor of
re does without MULTILINE.
-/

namespace JsWeb

/-- Python dict lookup, d.get(k): the first binding wins, and assignments keep
a key's original position, so an association list scanned front to back agrees
with dict semantics as long as insertion goes through dictInsert. -/
def dictFind {β : Type} : List (String × β) → String → Option β
  | [], _ => none
  | (k', v) :: rest, k => if k' = k then some v else dictFind rest k

/-- Python dict assignment d[k] = v: overwrite the existing binding in place,
otherwise append the new binding at the end (insertion order preserved). -/
def dictInsert {β : Type} : List (String × β) → String → β → List (String × β)
  | [], k, v => [(k, v)]
  | (k', v') :: rest, k, v =>
    if k' = k then (k, v) :: rest else (k', v') :: dictInsert rest k v

/-! ### Decimal digits, str.isdigit and int() on the strings the router meets -/

/-- Start code points of the ten-character blocks of Unicode decimal digits
(category Nd), per the Unicode database CPython ships: every block holds the
digit values 0 to 9 in code-point order.  This is the character class of the
regex digit metacharacter on str patterns, which is also exactly the set on
which str.isdigit and int() agree on the captures that class can deliver. -/
def ndStarts : List Nat :=
  [48, 1632, 1776, 1984, 2406, 2534, 2662, 2790,
   2918, 3046, 3174, 3302, 3430, 3558, 3664, 3792,
   3872, 4160, 4240, 6112, 6160, 6470, 6608, 6784,
   6800, 6992, 7088, 7232, 7248, 42528, 43216, 43264,
   43472, 43504, 43600, 44016, 65296, 66720, 68912, 69734,
   69872, 69942, 70096, 70384, 70736, 70864, 71248, 71360,
   71472, 71904, 72016, 72784, 73040, 73120, 92768, 92864,
   93008, 120782, 120792, 120802, 120812, 120822, 123200, 123632,
   125264, 130032]

/-- The start of the decimal-digit block a character belongs to, if any. -/
def ndStart (c : Char) : Option Nat :=
  ndStarts.find? (fun s => decide (s ≤ c.toNat) && decide (c.toNat < s + 10))

/-- Unicode decimal digit: the regex digit class of str patterns. -/
def isDigitChar (c : Char) : Bool := (ndStart c).isSome

/-- Numeric value of a decimal-digit character: its offset inside its
ten-character block. -/
def digitVal (c : Char) : Nat := c.toNat - (ndStart c).getD 0

/-- Value of a digit string read left to right, as Python int() reads an
all-digit string. -/
def natOfDigits (cs : List Char) : Nat := cs.foldl (fun a c => a * 10 + digitVal c) 0

/-- The ASCII digit character for a value below ten. -/
def digitChar (d : Nat) : Char :=
  if d = 0 then '0' else if d = 1 then '1' else if d = 2 then '2'
  else if d = 3 then '3' else if d = 4 then '4' else if d = 5 then '5'
  else if d = 6 then '6' else if d = 7 then '7' else if d = 8 then '8' else '9'

/-- Worker for natDecimal with enough fuel to divide down to one digit. -/
def natDecimalAux : Nat → Nat → List Char
  | 0, n => [digitChar n]
  | fuel + 1, n =>
    if n < 10 then [digitChar n]
    else natDecimalAux fuel (n / 10) ++ [digitChar (n % 10)]

/-- Canonical decimal digits of a natural number, as Python str() prints one. -/
def natDecimal (n : Nat) : List Char := natDecimalAux n n

/-- Python str() of an integer: canonical decimal digits with a leading minus
sign for negative values. -/
def pyStrOfInt (v : Int) : String :=
  if v < 0 then String.mk ('-' :: natDecimal v.natAbs) else String.mk (natDecimal v.natAbs)

/-- Python value.isdigit() on the values the route regex can deliver to the
int converter: nonempty and all characters decimal digits.  (str.isdigit also
accepts a few non-decimal digit characters such as superscripts, on which
int() would raise, but the digit class of the route regex never matches
those, so they cannot reach _int_converter.) -/
def pyIsDigit (cs : List Char) : Bool := !cs.isEmpty && cs.all isDigitChar

/-- The _int_converter of routing.py: an optionally minus-signed all-digit
string parses to the corresponding integer, anything else gives Python None
(value.startswith a minus with a digit tail takes the first branch; otherwise
the whole string must be digits, so a bare minus or a signed non-digit tail
falls through to None). -/
def intConvChars : List Char → Option Int
  | [] => none
  | c :: rest =>
    if c = '-' then
      if pyIsDigit rest then some (-(natOfDigits rest : Int)) else none
    else if pyIsDigit (c :: rest) then some ((natOfDigits (c :: rest) : Int)) else none

def intConverter (value : String) : Option Int := intConvChars value.data

/-! ### The compiled pattern: alternating literal chunks and parameter groups

_compile_path builds the string regex by surrounding the pattern with the two
anchors and substituting each kind:name token in angle brackets by a named
capture group.  The result alternates literal text (inserted into the regex
unescaped) with the three known capture-group classes, which is what Seg
records. -/

/-- One alternating piece of the compiled anchored regex: literal text between
parameter tokens, or a parameter token replaced by its named capture group. -/
inductive Seg where
  | lit (chunk : String)
  | param (kind name : String)
deriving DecidableEq, Repr

/-- The character class of the str capture group (one or more non-slash
characters). -/
def notSlash (c : Char) : Bool := c ≠ '/'

/-- The any-character metacharacter without DOTALL: everything but a newline.
It is both the class of the path capture group and the meaning of an unescaped
dot inside literal pattern text. -/
def dotChar (c : Char) : Bool := c ≠ '\n'

/-- Candidate capture lengths in greedy order: the whole run first, down to a
single character. -/
def descLens (m : Nat) : List Nat := (List.range m).reverse.map (· + 1)

/-- Candidate capture lengths in lazy order: a single character first, up to
the whole run. -/
def ascLens (m : Nat) : List Nat := (List.range m).map (· + 1)

/-- Split the input at a candidate capture length. -/
def splitsOfLen (cs : List Char) (L : Nat) : List Char × List Char :=
  (cs.take L, cs.drop L)

/-- Backtracking candidates of a greedy one-or-more character class: every
nonempty prefix of the leading run, longest first. -/
def greedySplits (p : Char → Bool) (cs : List Char) : List (List Char × List Char) :=
  (descLens (cs.takeWhile p).length).map (splitsOfLen cs)

/-- Backtracking candidates of the lazy one-or-more class, shortest first. -/
def lazySplits (p : Char → Bool) (cs : List Char) : List (List Char × List Char) :=
  (ascLens (cs.takeWhile p).length).map (splitsOfLen cs)

/-- Backtracking candidates of the int group: the greedy optional sign prefers
consuming a leading minus, and with the sign consumed the digit class follows;
without a leading minus the digits start immediately.  The empty-sign
alternative after a leading minus would need a digit at the minus position and
so contributes nothing. -/
def intSplits (cs : List Char) : List (List Char × List Char) :=
  match cs with
  | [] => []
  | c :: rest =>
    if c = '-' then (greedySplits isDigitChar rest).map (fun pr => ('-' :: pr.1, pr.2))
    else greedySplits isDigitChar (c :: rest)

/-- TYPE_CONVERTERS regex fragments: str is the greedy non-slash class, int
the signed digit class, path the lazy any-character class; unknown kinds fall
back to str. -/
def kindSplits (kind : String) (cs : List Char) : List (List Char × List Char) :=
  if kind = "int" then intSplits cs
  else if kind = "path" then lazySplits dotChar cs
  else greedySplits notSlash cs

/-- Match one literal chunk of the compiled regex against the input and return
the rest.  The pattern text is inserted into the regex unescaped, so a dot in
a chunk is the any-character metacharacter; the other characters are modelled
verbatim, which is faithful for chunks free of regex metacharacters (the
theorems below restrict literal chunks accordingly where it matters). -/
def stripLit : List Char → List Char → Option (List Char)
  | [], cs => some cs
  | l :: ls, c :: cs =>
    if (if l = '.' then dotChar c else l = c) then stripLit ls cs else none
  | _ :: _, [] => none

/-- First successful result over a list of alternatives, in order: the
backtracking search of the re engine over a group's candidate captures. -/
def firstSome {β γ : Type} : List β → (β → Option γ) → Option γ
  | [], _ => none
  | x :: xs, f =>
    match f x with
    | some y => some y
    | none => firstSome xs f

/-- Run the compiled matcher, anchored on both sides as _compile_path builds
it, against the whole path: literal chunks consume matching characters,
parameter groups try their candidate captures in the backtracking order of
the re engine, and the named captures come back in group order (the order
groupdict iterates them).  The end anchor accepts the end of the input or a
newline standing as its last character, as the dollar of re does without
MULTILINE. -/
def matchSegs : List Seg → List Char → Option (List (String × String))
  | [], [] => some []
  | [], c :: rest => if c = '\n' ∧ rest = [] then some [] else none
  | Seg.lit chunk :: rest, cs =>
    match stripLit chunk.data cs with
    | some cs' => matchSegs rest cs'
    | none => none
  | Seg.param kind name :: rest, cs =>
    firstSome (kindSplits kind cs) (fun pr =>
      (matchSegs rest pr.2).map (fun ps => (name, String.mk pr.1) :: ps))

/-! ### Tokenising a pattern string -/

/-- A word character of the token regex in the ASCII model. -/
def isWordChar (c : Char) : Bool := c.isAlphanum || c = '_'

/-- Read a kind:name parameter token in angle brackets at the head of the
input, returning kind, name and the rest. -/
def readToken (cs : List Char) : Option (String × String × List Char) :=
  match cs with
  | '<' :: rest =>
    let k := rest.takeWhile isWordChar
    match rest.dropWhile isWordChar with
    | ':' :: rest2 =>
      let nm := rest2.takeWhile isWordChar
      match rest2.dropWhile isWordChar with
      | '>' :: rest3 =>
        if k.isEmpty || nm.isEmpty then none else some (String.mk k, String.mk nm, rest3)
      | _ => none
    | _ => none
  | _ => none

/-- Worker for scanSegs: accumulate literal characters (reversed) until a
parameter token starts, with fuel bounded by the input length. -/
def scanAux : Nat → List Char → List Char → List Seg
  | 0, acc, _ => if acc.isEmpty then [] else [Seg.lit (String.mk acc.reverse)]
  | _ + 1, acc, [] => if acc.isEmpty then [] else [Seg.lit (String.mk acc.reverse)]
  | fuel + 1, acc, c :: rest =>
    if c = '<' then
      match readToken (c :: rest) with
      | some (k, nm, rest') =>
        (if acc.isEmpty then [] else [Seg.lit (String.mk acc.reverse)])
          ++ Seg.param k nm :: scanAux fuel [] rest'
      | none => scanAux fuel (c :: acc) rest
    else scanAux fuel (c :: acc) rest

/-- Split a pattern into alternating literal chunks and kind:name parameter
tokens: the combined effect of the findall over the token regex and the
textual substitution of every token by its capture group in _compile_path
(equivalent for patterns with distinct parameter names, which re.compile
enforces anyway since a duplicated group name is a compile error). -/
def scanSegs (cs : List Char) : List Seg := scanAux cs.length [] cs

/-! ### Converted parameter values -/

/-- A converted parameter value as stored into the params dict.  Converters
return the converted value, or Python None when conversion fails:
_int_converter returns None rather than raising, so the ValueError guard in
Route.match never fires for the built-in converters. -/
inductive PValue where
  | int (n : Int)
  | str (s : String)
  | pynone
deriving DecidableEq, Repr

/-- TYPE_CONVERTERS converter component: int uses _int_converter, str and
path are string passthroughs, and unknown kinds fall back to the str
converter. -/
def applyConverter (kind : String) (raw : String) : PValue :=
  if kind = "int" then
    match intConverter raw with
    | some n => PValue.int n
    | none => PValue.pynone
  else PValue.str raw

/-- The converters dict of a compiled route, keyed by parameter name: each
token assigns its converter, a later duplicate name overwriting an earlier
one exactly as the dict assignment in _compile_path does. -/
def kindOfName (segs : List Seg) (nm : String) : String :=
  segs.foldl
    (fun acc s =>
      match s with
      | Seg.param k n => if n = nm then k else acc
      | Seg.lit _ => acc)
    "str"

/-! ### Route and Router -/

/-- A registered route: the original pattern, the stored handler value, the
allowed-method list and the endpoint name.  The derived data of __init__
(is_static, the compiled regex, param_names, converters) is recomputed by the
functions below from the same pattern, which the constructor computes once. -/
structure Route (α : Type) where
  path : String
  handler : α
  methods : List String
  endpoint : String
deriving DecidableEq, Repr

/-- A route is static iff its pattern contains no opening angle bracket. -/
def Route.isStaticB {α : Type} (r : Route α) : Bool := !(r.path.data.contains '<')

/-- The compiled alternating pieces of a dynamic route's anchored regex. -/
def Route.segs {α : Type} (r : Route α) : List Seg := scanSegs r.path.data

/-- Parameter names in pattern order, as _compile_path collects them. -/
def Route.paramNames {α : Type} (r : Route α) : List String :=
  r.segs.filterMap (fun s =>
    match s with
    | Seg.param _ nm => some nm
    | Seg.lit _ => none)

/-- Route.match: a static route by exact string comparison, a dynamic route by
the compiled anchored matcher followed by the converters applied to the named
captures in group order.  The built-in converters return None instead of
raising, so the exception guard of the source contributes nothing. -/
def Route.matchPath {α : Type} (r : Route α) (path : String) :
    Option (List (String × PValue)) :=
  if r.isStaticB then
    if path = r.path then some [] else none
  else
    (matchSegs r.segs path.data).map
      (fun ps => ps.map (fun pr => (pr.1, applyConverter (kindOfName r.segs pr.1) pr.2)))

/-- The Router state: the static dict, the dynamic list in registration order
and the endpoint index for reverse lookups. -/
structure Router (α : Type) where
  static_routes : List (String × Route α)
  dynamic_routes : List (Route α)
  endpoints : List (String × Route α)
deriving DecidableEq, Repr

/-- A Router as __init__ leaves it. -/
def emptyRouter {α : Type} : Router α := ⟨[], [], []⟩

/-- Router.add_route with methods and endpoint supplied (the Python defaults
of a GET singleton and of the handler name are caller-side conveniences).
The duplicate-endpoint check runs before any table is touched, so on the
ValueError the router comes back unmodified; otherwise the new route goes to
exactly one of the two route tables and to the endpoint index. -/
def addRoute {α : Type} (r : Router α) (path : String) (handler : α)
    (methods : List String) (endpoint : String) : Router α × Option String :=
  if (dictFind r.endpoints endpoint).isSome then
    (r, some ("Endpoint \"" ++ endpoint ++ "\" is already registered."))
  else
    let rt : Route α := ⟨path, handler, methods, endpoint⟩
    if rt.isStaticB then
      ({ r with
          static_routes := dictInsert r.static_routes path rt,
          endpoints := dictInsert r.endpoints endpoint rt }, none)
    else
      ({ r with
          dynamic_routes := r.dynamic_routes ++ [rt],
          endpoints := dictInsert r.endpoints endpoint rt }, none)

/-- The two routing exceptions of routing.py. -/
inductive ResolveErr where
  | notFound
  | methodNotAllowed
deriving DecidableEq, Repr

/-- The dynamic scan of Router.resolve: registration order, with the cheap
method-membership rejection before the regex match, first success wins,
NotFound when the list is exhausted. -/
def resolveDynamic {α : Type} :
    List (Route α) → String → String → Except ResolveErr (α × List (String × PValue))
  | [], _, _ => Except.error ResolveErr.notFound
  | rt :: rest, path, method =>
    if rt.methods.contains method then
      match rt.matchPath path with
      | some ps => Except.ok (rt.handler, ps)
      | none => resolveDynamic rest path method
    else resolveDynamic rest path method

/-- Router.resolve: the static dict lookup decides first (a method mismatch
there raises MethodNotAllowed before any dynamic route is consulted), then the
dynamic list is scanned. -/
def resolve {α : Type} (r : Router α) (path method : String) :
    Except ResolveErr (α × List (String × PValue)) :=
  match dictFind r.static_routes path with
  | some rt =>
    if rt.methods.contains method then Except.ok (rt.handler, [])
    else Except.error ResolveErr.methodNotAllowed
  | none => resolveDynamic r.dynamic_routes path method

/-! ### Reverse URL generation (Router.url_for) -/

/-- Boolean string-prefix test on character lists. -/
def isPrefixOfChars : List Char → List Char → Bool
  | [], _ => true
  | _ :: _, [] => false
  | a :: as, b :: bs => if a = b then isPrefixOfChars as bs else false

/-- Python substring containment, the pattern-in-path test of url_for. -/
def containsSub : List Char → List Char → Bool
  | [], pat => pat.isEmpty
  | c :: rest, pat => isPrefixOfChars pat (c :: rest) || containsSub rest pat

/-- Worker for replaceAll: each pass either consumes a whole nonempty match
or one character, so the input length is enough fuel. -/
def replaceAllAux (pat rep : List Char) : Nat → List Char → List Char
  | _, [] => []
  | 0, cs => cs
  | fuel + 1, c :: rest =>
    if pat ≠ [] ∧ isPrefixOfChars pat (c :: rest) = true then
      rep ++ replaceAllAux pat rep fuel ((c :: rest).drop pat.length)
    else c :: replaceAllAux pat rep fuel rest

/-- Python str.replace: every non-overlapping occurrence, scanning left to
right, with replacement text never rescanned. -/
def replaceAll (cs pat rep : List Char) : List Char :=
  replaceAllAux pat rep cs.length cs

/-- Iteration order of Route.TYPE_CONVERTERS.keys(). -/
def typeKeys : List String := ["str", "int", "path"]

/-- A value supplied to url_for: the kinds str() is applied to here. -/
inductive PyVal where
  | int (n : Int)
  | str (s : String)
deriving DecidableEq, Repr

/-- Python str() on a url_for argument. -/
def pyStr : PyVal → String
  | PyVal.int n => pyStrOfInt n
  | PyVal.str s => s

/-- The literal text of a kind:name parameter token. -/
def tokenText (kind name : String) : String := "<" ++ kind ++ ":" ++ name ++ ">"

/-- The params-dict value resolve hands back for a url_for argument of the
correct converter kind: integers stay integers, strings stay strings. -/
def pvalOf : PyVal → PValue
  | PyVal.int n => PValue.int n
  | PyVal.str s => PValue.str s

/-- One pass of the inner loop of url_for for one parameter name: the first
known kind whose token text occurs in the path has every occurrence of that
token replaced by the stringified value, then the loop breaks; a parameter
spelled with an unknown kind matches no probe and the path stays untouched. -/
def substParam (nm : String) (v : String) (path : List Char) : List Char :=
  match typeKeys.find? (fun k => containsSub path (tokenText k nm).data) with
  | some k => replaceAll path (tokenText k nm).data v.data
  | none => path

/-- The outer loop of url_for over param_names: a missing parameter raises the
ValueError naming it before any later substitution happens. -/
def urlForAux (params : List (String × PyVal)) (endpoint : String) :
    List String → List Char → Except String (List Char)
  | [], path => Except.ok path
  | nm :: rest, path =>
    match dictFind params nm with
    | none =>
      Except.error ("Missing parameter \x27" ++ nm ++ "\x27 for endpoint \x27"
        ++ endpoint ++ "\x27.")
    | some v => urlForAux params endpoint rest (substParam nm (pyStr v) path)

/-- Router.url_for: unresolvable endpoints raise, static routes return the
pattern unchanged, dynamic routes substitute each parameter token. -/
def urlFor {α : Type} (r : Router α) (endpoint : String)
    (params : List (String × PyVal)) : Except String String :=
  match dictFind r.endpoints endpoint with
  | none => Except.error ("No route found for endpoint \x27" ++ endpoint ++ "\x27.")
  | some rt =>
    if rt.isStaticB then Except.ok rt.path
    else (urlForAux params endpoint rt.paramNames rt.path.data).map String.mk

/-! ### The terminal dispatch stage (app.py) -/

/-- The normalized WSGI response data the dispatch stage hands to
start_response. -/
structure WsgiResponse where
  status : String
deriving DecidableEq, Repr

/-- The resolution part of JsWebApp._wsgi_app_handler: Router.resolve is
called with no surrounding exception handler, so a NotFound or
MethodNotAllowed raised there escapes the stage as the error value; only a
successful resolution reaches the handler call, whose adapted response is
returned.  The literal 404 branch at the end of the source runs only when
resolve returns a falsy handler, which it never does: on failure it raises
instead of returning. -/
def wsgiAppHandler {α : Type} (r : Router α) (path method : String)
    (runHandler : α → List (String × PValue) → WsgiResponse) :
    Except ResolveErr WsgiResponse :=
  match resolve r path method with
  | Except.error e => Except.error e
  | Except.ok (h, ps) => Except.ok (runHandler h ps)

/-! ### The CSRF middleware and the csrf-cookie bootstrap -/

/-- The CSRFMiddleware.__call__ decision on an http request: true means
delegate to the wrapped application, false means short-circuit with the 403
Forbidden response.  Only the parsed form body and the cookie jar are
consulted; the request's headers are in scope on the request object but the
middleware never reads them.  A missing dict key gives Python None, and the
falsy test also rejects an empty-string token, before the constant-time
comparison of the two tokens. -/
def csrfAllows (method : String) (form : List (String × String))
    (cookies : List (String × String)) (headers : List (String × String)) : Bool :=
  if ["POST", "PUT", "PATCH", "DELETE"].contains method then
    match dictFind form "csrf_token", dictFind cookies "csrf_token" with
    | some ft, some ct => ft ≠ "" && ct ≠ "" && ft = ct
    | _, _ => false
  else
    let _ := headers
    true

/-- The csrf-token bootstrap of JsWebApp.__call__: the request's csrf_token
cookie when present and truthy, otherwise the freshly generated token hex
(passed in as a parameter, since token generation is random), paired with the
new_csrf_token_generated flag.  The Python falsiness test regenerates not
only for an absent cookie but also for an empty-string one. -/
def csrfTokenSetup (cookies : List (String × String)) (fresh : String) :
    String × Bool :=
  match dictFind cookies "csrf_token" with
  | some t => if t = "" then (fresh, true) else (t, false)
  | none => (fresh, true)

/-- Arguments recorded by one response.set_cookie call.  Modelled from the
spec: the response object is an external collaborator of the dispatch core
(response.py is not among the routed sources), assumed only to expose the
ability to set cookies, so set_cookie is modelled as recording its
arguments. -/
structure SetCookie where
  name : String
  value : String
  httponly : Bool
  samesite : String
deriving DecidableEq, Repr

/-- The csrf cookies set on a normal handler response by _wsgi_app_handler:
exactly one csrf_token cookie with httponly False and samesite Lax carrying
the request's token when the new-token flag was set by the bootstrap, and
none otherwise. -/
def responseCsrfCookies (cookies : List (String × String)) (fresh : String) :
    List SetCookie :=
  let st := csrfTokenSetup cookies fresh
  if st.2 then [⟨"csrf_token", st.1, false, "Lax"⟩] else []

/-! ### Lemmas: literal chunks -/

/-- Characters with a regex meaning when they appear unescaped in literal
pattern text. -/
def metaChar (c : Char) : Bool :=
  c = '.' || c = '^' || c = '$' || c = '*' || c = '+' || c = '?' ||
  c = '(' || c = ')' || c = '[' || c = ']' || c = '|' || c = '\\' ||
  c = '{' || c = '}'

/-- Literal text free of regex metacharacters, matched verbatim by the
compiled regex. -/
def metaFree (cs : List Char) : Bool := cs.all (fun c => !metaChar c)

/-- The shape of the int group's regex fragment: an optional leading minus
sign then a nonempty digit string. -/
def intShape (cs : List Char) : Bool :=
  match cs with
  | [] => false
  | c :: rest => if c = '-' then pyIsDigit rest else pyIsDigit (c :: rest)

/-- The set of strings a parameter group can capture: the int class is an
optionally minus-signed nonempty digit string, str one or more non-slash
characters, path one or more non-newline characters; unknown kinds share the
str class. -/
def kindAccepts (kind : String) (cs : List Char) : Bool :=
  if kind = "int" then intShape cs
  else if kind = "path" then !cs.isEmpty && cs.all dotChar
  else !cs.isEmpty && cs.all notSlash

/-- Rebuild the matched path from the pattern's literal chunks and the named
captures, in order. -/
def rebuild : List Seg → List (String × String) → List Char
  | [], _ => []
  | Seg.lit chunk :: rest, ps => chunk.data ++ rebuild rest ps
  | Seg.param _ _ :: _, [] => []
  | Seg.param _ _ :: rest, pr :: ps => pr.2.data ++ rebuild rest ps

/-- All literal chunks of a compiled pattern free of regex metacharacters. -/
def segsMetaFree (segs : List Seg) : Bool :=
  segs.all (fun s =>
    match s with
    | Seg.lit chunk => metaFree chunk.data
    | Seg.param _ _ => true)

/-- Run a list of add_route calls in order, failing if any of them raises. -/
def registerAll {α : Type} :
    Router α → List (String × α × List String × String) → Option (Router α)
  | r, [] => some r
  | r, (path, handler, ms, e) :: rest =>
    match addRoute r path handler ms e with
    | (r', none) => registerAll r' rest
    | (_, some _) => none

/-- The route-table invariant maintained by successful registration under
distinct static paths: endpoint keys and static keys are unique, every table
entry records its own key, and the two route tables together hold exactly the
routes of the endpoint index. -/
def routerInv {α : Type} (r : Router α) : Prop :=
  (r.endpoints.map Prod.fst).Nodup ∧
  (∀ pr ∈ r.endpoints, (Prod.snd pr).endpoint = pr.1) ∧
  ((r.static_routes.map Prod.snd) ++ r.dynamic_routes).Perm
    (r.endpoints.map Prod.snd)

/-- The paths of the static-classified registrations of a request list. -/
def staticPaths {α : Type} (regs : List (String × α × List String × String)) :
    List String :=
  (regs.filter (fun q => !(q.1.data.contains '<'))).map (fun q => q.1)

theorem metaFree_cons {a : Char} {l : List Char} (h : metaFree (a :: l) = true) :
    metaChar a = false ∧ metaFree l = true := by
  simp only [metaFree, List.all_cons, Bool.and_eq_true, Bool.not_eq_true'] at h ⊢
  exact h

theorem stripLit_of_append {l cs : List Char} (h : metaFree l = true) :
    stripLit l (l ++ cs) = some cs := by
  induction l with
  | nil => rfl
  | cons a l ih =>
    obtain ⟨ha, hl⟩ := metaFree_cons h
    have hdot : a ≠ '.' := by
      intro hc; subst hc; simp [metaChar] at ha
    simp only [List.cons_append, stripLit, hdot, if_neg hdot, if_pos rfl]
    simpa using ih hl

theorem stripLit_eq_append {l cs cs' : List Char} (h : metaFree l = true)
    (hs : stripLit l cs = some cs') : cs = l ++ cs' := by
  induction l generalizing cs with
  | nil => simpa [stripLit] using hs
  | cons a l ih =>
    obtain ⟨ha, hl⟩ := metaFree_cons h
    have hdot : a ≠ '.' := by
      intro hc; subst hc; simp [metaChar] at ha
    cases cs with
    | nil => simp [stripLit] at hs
    | cons c cs =>
      simp only [stripLit, if_neg hdot] at hs
      by_cases hac : a = c
      · subst hac
        simp only [if_pos rfl] at hs
        simpa using ih hl hs
      · simp [hac] at hs

/-! ### Lemmas: candidate captures of the parameter classes -/

theorem takeWhile_append_of_all {p : Char → Bool} {v rest : List Char}
    (h : v.all p = true) :
    (v ++ rest).takeWhile p = v ++ rest.takeWhile p := by
  induction v with
  | nil => simp
  | cons a v ih =>
    simp only [List.all_cons, Bool.and_eq_true] at h
    simp [List.takeWhile, h.1, ih h.2]

theorem all_take_of_le_takeWhile {p : Char → Bool} {cs : List Char} {L : Nat}
    (h : L ≤ (cs.takeWhile p).length) : (cs.take L).all p = true := by
  induction cs generalizing L with
  | nil => simp
  | cons c cs ih =>
    cases L with
    | zero => simp
    | succ L =>
      by_cases hc : p c
      · simp only [List.takeWhile, hc, List.length_cons] at h
        simp only [List.take, List.all_cons, hc, Bool.true_and]
        exact ih (Nat.le_of_succ_le_succ h)
      · simp [List.takeWhile, hc] at h

theorem mem_descLens {m L : Nat} : L ∈ descLens m ↔ 1 ≤ L ∧ L ≤ m := by
  simp only [descLens, List.mem_map, List.mem_reverse, List.mem_range]
  constructor
  · rintro ⟨a, ha, rfl⟩; omega
  · rintro ⟨h1, h2⟩; exact ⟨L - 1, by omega, by omega⟩

theorem mem_ascLens {m L : Nat} : L ∈ ascLens m ↔ 1 ≤ L ∧ L ≤ m := by
  simp only [ascLens, List.mem_map, List.mem_range]
  constructor
  · rintro ⟨a, ha, rfl⟩; omega
  · rintro ⟨h1, h2⟩; exact ⟨L - 1, by omega, by omega⟩

theorem descLens_succ (m : Nat) : descLens (m + 1) = (m + 1) :: descLens m := by
  simp [descLens, List.range_succ]

theorem ascLens_succ (m : Nat) : ascLens (m + 1) = ascLens m ++ [m + 1] := by
  simp [ascLens, List.range_succ]

theorem length_takeWhile_le {p : Char → Bool} (cs : List Char) :
    (cs.takeWhile p).length ≤ cs.length :=
  (List.takeWhile_sublist p).length_le

theorem greedySplits_sound {p : Char → Bool} {cs : List Char}
    {pr : List Char × List Char} (h : pr ∈ greedySplits p cs) :
    cs = pr.1 ++ pr.2 ∧ pr.1 ≠ [] ∧ pr.1.all p = true := by
  simp only [greedySplits, List.mem_map] at h
  obtain ⟨L, hL, rfl⟩ := h
  obtain ⟨h1, h2⟩ := mem_descLens.mp hL
  refine ⟨(List.take_append_drop L cs).symm, ?_, all_take_of_le_takeWhile h2⟩
  have hlen : (cs.takeWhile p).length ≤ cs.length := length_takeWhile_le cs
  intro hnil
  have := congrArg List.length hnil
  simp only [splitsOfLen, List.length_take, List.length_nil] at this
  omega

theorem lazySplits_sound {p : Char → Bool} {cs : List Char}
    {pr : List Char × List Char} (h : pr ∈ lazySplits p cs) :
    cs = pr.1 ++ pr.2 ∧ pr.1 ≠ [] ∧ pr.1.all p = true := by
  simp only [lazySplits, List.mem_map] at h
  obtain ⟨L, hL, rfl⟩ := h
  obtain ⟨h1, h2⟩ := mem_ascLens.mp hL
  refine ⟨(List.take_append_drop L cs).symm, ?_, all_take_of_le_takeWhile h2⟩
  have hlen : (cs.takeWhile p).length ≤ cs.length := length_takeWhile_le cs
  intro hnil
  have := congrArg List.length hnil
  simp only [splitsOfLen, List.length_take, List.length_nil] at this
  omega

theorem one_le_length_of_ne_nil {v : List Char} (h : v ≠ []) : 1 ≤ v.length := by
  cases v with
  | nil => exact absurd rfl h
  | cons a l => simp

theorem greedySplits_complete {p : Char → Bool} {v rest : List Char}
    (hne : v ≠ []) (hall : v.all p = true) :
    (v, rest) ∈ greedySplits p (v ++ rest) := by
  have hrun : v.length ≤ ((v ++ rest).takeWhile p).length := by
    rw [takeWhile_append_of_all hall]
    simp
  have hmem : v.length ∈ descLens ((v ++ rest).takeWhile p).length :=
    mem_descLens.mpr ⟨one_le_length_of_ne_nil hne, hrun⟩
  simp only [greedySplits, List.mem_map]
  exact ⟨v.length, hmem, by simp [splitsOfLen, List.take_left, List.drop_left]⟩

theorem lazySplits_complete {p : Char → Bool} {v rest : List Char}
    (hne : v ≠ []) (hall : v.all p = true) :
    (v, rest) ∈ lazySplits p (v ++ rest) := by
  have hrun : v.length ≤ ((v ++ rest).takeWhile p).length := by
    rw [takeWhile_append_of_all hall]
    simp
  have hmem : v.length ∈ ascLens ((v ++ rest).takeWhile p).length :=
    mem_ascLens.mpr ⟨one_le_length_of_ne_nil hne, hrun⟩
  simp only [lazySplits, List.mem_map]
  exact ⟨v.length, hmem, by simp [splitsOfLen, List.take_left, List.drop_left]⟩



theorem kindAccepts_int (cs : List Char) : kindAccepts "int" cs = intShape cs := rfl

theorem kindAccepts_path (cs : List Char) :
    kindAccepts "path" cs = (!cs.isEmpty && cs.all dotChar) := rfl

theorem kindAccepts_other {kind : String} (hk : kind ≠ "int") (hp : kind ≠ "path")
    (cs : List Char) : kindAccepts kind cs = (!cs.isEmpty && cs.all notSlash) := by
  simp [kindAccepts, hk, hp]

theorem kindSplits_int (cs : List Char) : kindSplits "int" cs = intSplits cs := rfl

theorem kindSplits_path (cs : List Char) :
    kindSplits "path" cs = lazySplits dotChar cs := rfl

theorem kindSplits_other {kind : String} (hk : kind ≠ "int") (hp : kind ≠ "path")
    (cs : List Char) : kindSplits kind cs = greedySplits notSlash cs := by
  simp [kindSplits, hk, hp]

theorem pyIsDigit_iff {cs : List Char} :
    pyIsDigit cs = true ↔ cs ≠ [] ∧ cs.all isDigitChar = true := by
  simp [pyIsDigit, List.isEmpty_iff]

theorem kindAccepts_ne_nil {kind : String} {cs : List Char}
    (h : kindAccepts kind cs = true) : cs ≠ [] := by
  intro hnil
  subst hnil
  by_cases hk : kind = "int"
  · rw [hk, kindAccepts_int] at h
    simp [intShape] at h
  · by_cases hp : kind = "path"
    · rw [hp, kindAccepts_path] at h
      simp at h
    · rw [kindAccepts_other hk hp] at h
      simp at h

theorem minus_not_digit : isDigitChar '-' = false := by decide

theorem newline_not_digit : isDigitChar '\n' = false := by decide

theorem digit_ne_minus {c : Char} (h : isDigitChar c = true) : c ≠ '-' := by
  intro hc
  rw [hc, minus_not_digit] at h
  exact Bool.false_ne_true h

theorem all_digit_shape {ds : List Char} (hd : ds ≠ [])
    (ha : ds.all isDigitChar = true) : intShape ds = true := by
  cases ds with
  | nil => exact absurd rfl hd
  | cons d ds0 =>
    have hdc : isDigitChar d = true := by
      simp only [List.all_cons, Bool.and_eq_true] at ha
      exact ha.1
    have hdm : d ≠ '-' := by
      intro hcc
      rw [hcc, minus_not_digit] at hdc
      exact absurd hdc (by simp)
    simp only [intShape, if_neg hdm]
    exact pyIsDigit_iff.mpr ⟨by simp, ha⟩

theorem intSplits_sound {cs : List Char} {pr : List Char × List Char}
    (h : pr ∈ intSplits cs) : cs = pr.1 ++ pr.2 ∧ intShape pr.1 = true := by
  cases cs with
  | nil => simp [intSplits] at h
  | cons c cs0 =>
    by_cases hc : c = '-'
    · subst hc
      rw [intSplits, if_pos rfl] at h
      rcases List.mem_map.mp h with ⟨pr0, hpr0, rfl⟩
      obtain ⟨heq, hne, hall⟩ := greedySplits_sound hpr0
      refine ⟨by simp [heq], ?_⟩
      simp only [intShape, if_pos rfl]
      exact pyIsDigit_iff.mpr ⟨hne, hall⟩
    · rw [intSplits, if_neg hc] at h
      obtain ⟨heq, hne, hall⟩ := greedySplits_sound h
      exact ⟨heq, all_digit_shape hne hall⟩

theorem intSplits_complete {v rest : List Char} (h : intShape v = true) :
    (v, rest) ∈ intSplits (v ++ rest) := by
  cases v with
  | nil => simp [intShape] at h
  | cons c v0 =>
    by_cases hc : c = '-'
    · subst hc
      rw [intShape, if_pos rfl] at h
      obtain ⟨hne, hall⟩ := pyIsDigit_iff.mp h
      rw [List.cons_append, intSplits, if_pos rfl]
      exact List.mem_map.mpr ⟨(v0, rest), greedySplits_complete hne hall, rfl⟩
    · rw [intShape, if_neg hc] at h
      obtain ⟨hne, hall⟩ := pyIsDigit_iff.mp h
      rw [List.cons_append, intSplits, if_neg hc]
      exact greedySplits_complete (show (c :: v0 : List Char) ≠ [] by simp) hall

theorem kindSplits_sound {kind : String} {cs : List Char}
    {pr : List Char × List Char} (h : pr ∈ kindSplits kind cs) :
    cs = pr.1 ++ pr.2 ∧ kindAccepts kind pr.1 = true := by
  by_cases hk : kind = "int"
  · subst hk
    rw [kindSplits_int] at h
    rw [kindAccepts_int]
    exact intSplits_sound h
  · by_cases hp : kind = "path"
    · subst hp
      rw [kindSplits_path] at h
      rw [kindAccepts_path]
      obtain ⟨heq, hne, hall⟩ := lazySplits_sound h
      refine ⟨heq, ?_⟩
      simp only [Bool.and_eq_true]
      exact ⟨by simpa [List.isEmpty_iff] using hne, hall⟩
    · rw [kindSplits_other hk hp] at h
      rw [kindAccepts_other hk hp]
      obtain ⟨heq, hne, hall⟩ := greedySplits_sound h
      refine ⟨heq, ?_⟩
      simp only [Bool.and_eq_true]
      exact ⟨by simpa [List.isEmpty_iff] using hne, hall⟩

theorem kindSplits_complete {kind : String} {v rest : List Char}
    (h : kindAccepts kind v = true) : (v, rest) ∈ kindSplits kind (v ++ rest) := by
  by_cases hk : kind = "int"
  · subst hk
    rw [kindAccepts_int] at h
    rw [kindSplits_int]
    exact intSplits_complete h
  · by_cases hp : kind = "path"
    · subst hp
      rw [kindAccepts_path, Bool.and_eq_true] at h
      rw [kindSplits_path]
      exact lazySplits_complete (by simpa [List.isEmpty_iff] using h.1) h.2
    · rw [kindAccepts_other hk hp, Bool.and_eq_true] at h
      rw [kindSplits_other hk hp]
      exact greedySplits_complete (by simpa [List.isEmpty_iff] using h.1) h.2

/-! ### Lemmas: the backtracking search -/

theorem firstSome_eq_some {β γ : Type} {l : List β} {f : β → Option γ} {y : γ}
    (h : firstSome l f = some y) : ∃ x ∈ l, f x = some y := by
  induction l with
  | nil => simp [firstSome] at h
  | cons x xs ih =>
    simp only [firstSome] at h
    cases hx : f x with
    | some z =>
      rw [hx] at h
      exact ⟨x, by simp, by rw [hx]; exact h⟩
    | none =>
      rw [hx] at h
      obtain ⟨w, hw, hfw⟩ := ih h
      exact ⟨w, by simp [hw], hfw⟩

theorem firstSome_append_none {β γ : Type} {l1 : List β} (l2 : List β)
    {f : β → Option γ} (h : ∀ y ∈ l1, f y = none) :
    firstSome (l1 ++ l2) f = firstSome l2 f := by
  induction l1 with
  | nil => rfl
  | cons x xs ih =>
    simp only [List.cons_append, firstSome, h x (by simp)]
    exact ih (fun y hy => h y (by simp [hy]))

theorem firstSome_append_some {β γ : Type} {l1 : List β} (l2 : List β)
    {f : β → Option γ} {a : γ} (h : firstSome l1 f = some a) :
    firstSome (l1 ++ l2) f = some a := by
  induction l1 with
  | nil => simp [firstSome] at h
  | cons x xs ih =>
    simp only [List.cons_append, firstSome]
    simp only [firstSome] at h
    cases hx : f x with
    | some y =>
      rw [hx] at h
      exact h
    | none =>
      rw [hx] at h
      exact ih h

theorem firstSome_map {β β' γ : Type} (g : β → β') (l : List β)
    (f : β' → Option γ) :
    firstSome (l.map g) f = firstSome l (fun x => f (g x)) := by
  induction l with
  | nil => rfl
  | cons x xs ih =>
    simp only [List.map_cons, firstSome]
    cases hx : f (g x) with
    | some y => rfl
    | none => exact ih

/-- Backtracking over greedy candidates: the winner is the candidate at the
target length when every longer candidate fails. -/
theorem firstSome_desc {γ : Type} {R : List Char}
    {f : List Char × List Char → Option γ} {a : γ} {L0 : Nat} :
    ∀ m : Nat, 1 ≤ L0 → L0 ≤ m → f (splitsOfLen R L0) = some a →
    (∀ L, L0 < L → L ≤ m → f (splitsOfLen R L) = none) →
    firstSome ((descLens m).map (splitsOfLen R)) f = some a := by
  intro m
  induction m with
  | zero => intro h1 h2 _ _; omega
  | succ m ih =>
    intro h1 h2 hwin hfail
    rw [descLens_succ, List.map_cons]
    simp only [firstSome]
    by_cases hL : L0 = m + 1
    · subst hL
      rw [hwin]
    · have hle : L0 ≤ m := by omega
      rw [hfail (m + 1) (by omega) (Nat.le_refl _)]
      exact ih h1 hle hwin (fun L ha hb => hfail L ha (by omega))

/-- Backtracking over lazy candidates: the winner is the candidate at the
target length when every shorter candidate fails. -/
theorem firstSome_asc {γ : Type} {R : List Char}
    {f : List Char × List Char → Option γ} {a : γ} {L0 : Nat} :
    ∀ m : Nat, 1 ≤ L0 → L0 ≤ m → f (splitsOfLen R L0) = some a →
    (∀ L, 1 ≤ L → L < L0 → f (splitsOfLen R L) = none) →
    firstSome ((ascLens m).map (splitsOfLen R)) f = some a := by
  intro m
  induction m with
  | zero => intro h1 h2 _ _; omega
  | succ m ih =>
    intro h1 h2 hwin hfail
    rw [ascLens_succ, List.map_append]
    by_cases hL : L0 ≤ m
    · exact firstSome_append_some _ (ih h1 hL hwin hfail)
    · have hL0 : L0 = m + 1 := by omega
      have hnone : ∀ y ∈ (ascLens m).map (splitsOfLen R), f y = none := by
        intro y hy
        obtain ⟨L, hLmem, rfl⟩ := List.mem_map.mp hy
        obtain ⟨ha, hb⟩ := mem_ascLens.mp hLmem
        exact hfail L ha (by omega)
      rw [firstSome_append_none _ hnone]
      subst hL0
      simp only [List.map_cons, List.map_nil, firstSome, hwin]

/-! ### Lemmas: decomposing a successful match -/

theorem cons_eq_append_singleton {c d : Char} :
    ∀ l : List Char, c :: l = l ++ [d] → c = d
  | [], h => by simpa using h
  | a :: l, h => by
    simp only [List.cons_append, List.cons.injEq] at h
    exact h.1.trans (cons_eq_append_singleton l h.2)

/-- The end anchor: with the pattern exhausted, the matcher accepts exactly
the empty rest or a single newline rest. -/
theorem matchSegs_nil_end (cs : List Char) (ps : List (String × String)) :
    matchSegs [] cs = some ps ↔ ((cs = [] ∨ cs = ['\n']) ∧ ps = []) := by
  cases cs with
  | nil => simp [matchSegs, eq_comm]
  | cons c rest =>
    simp only [matchSegs]
    by_cases hx : c = '\n' ∧ rest = []
    · obtain ⟨rfl, rfl⟩ := hx
      simp [eq_comm]
    · rw [if_neg hx]
      constructor
      · intro hc
        exact absurd hc (by simp)
      · rintro ⟨hor, _⟩
        rcases hor with h2 | h2
        · exact absurd h2 (by simp)
        · simp only [List.cons.injEq] at h2
          exact absurd ⟨h2.1, h2.2⟩ hx

theorem matchSegs_rebuild {segs : List Seg} {cs : List Char}
    {ps : List (String × String)} (hmf : segsMetaFree segs = true)
    (h : matchSegs segs cs = some ps) :
    cs = rebuild segs ps ∨ cs = rebuild segs ps ++ ['\n'] := by
  induction segs generalizing cs ps with
  | nil =>
    obtain ⟨hor, hps⟩ := (matchSegs_nil_end cs ps).mp h
    subst hps
    exact hor
  | cons s rest ih =>
    cases s with
    | lit chunk =>
      have hmf' : metaFree chunk.data = true ∧ segsMetaFree rest = true := by
        simpa [segsMetaFree] using hmf
      simp only [matchSegs] at h
      cases hs : stripLit chunk.data cs with
      | none => rw [hs] at h; exact absurd h (by simp)
      | some cs' =>
        rw [hs] at h
        have hc := stripLit_eq_append hmf'.1 hs
        rcases ih hmf'.2 h with h2 | h2
        · exact Or.inl (by rw [rebuild, hc, h2])
        · exact Or.inr (by rw [rebuild, hc, h2, List.append_assoc])
    | param kind nm =>
      have hmf' : segsMetaFree rest = true := by
        simpa [segsMetaFree] using hmf
      simp only [matchSegs] at h
      obtain ⟨pr, hpr, hf⟩ := firstSome_eq_some h
      obtain ⟨tail, hm2, hf2⟩ := Option.map_eq_some'.mp hf
      obtain ⟨heq, _⟩ := kindSplits_sound hpr
      subst hf2
      rcases ih hmf' hm2 with h2 | h2
      · exact Or.inl (by rw [rebuild, heq, h2])
      · exact Or.inr (by rw [rebuild, heq, h2, List.append_assoc])

/-! ### Lemmas: matching a single-parameter pattern -/

/-- A trailing literal chunk before the end anchor, for metacharacter-free
text: the rest must be the chunk itself or the chunk plus a trailing
newline. -/
theorem matchSegs_lit_end {suf : String} (hsuf : metaFree suf.data = true) :
    ∀ (cs : List Char) (ps : List (String × String)),
    matchSegs [Seg.lit suf] cs = some ps ↔
      ((cs = suf.data ∨ cs = suf.data ++ ['\n']) ∧ ps = []) := by
  intro cs ps
  constructor
  · intro h
    simp only [matchSegs] at h
    cases hs : stripLit suf.data cs with
    | none => rw [hs] at h; exact absurd h (by simp)
    | some cs' =>
      rw [hs] at h
      obtain ⟨hor, hps⟩ := (matchSegs_nil_end cs' ps).mp h
      refine ⟨?_, hps⟩
      rw [stripLit_eq_append hsuf hs]
      rcases hor with rfl | rfl
      · exact Or.inl (by simp)
      · exact Or.inr rfl
  · rintro ⟨hor, rfl⟩
    rcases hor with rfl | rfl
    · have hstrip : stripLit suf.data (suf.data ++ []) = some [] :=
        stripLit_of_append hsuf
      simp only [List.append_nil] at hstrip
      simp [matchSegs, hstrip]
    · have hstrip : stripLit suf.data (suf.data ++ ['\n']) = some ['\n'] :=
        stripLit_of_append hsuf
      simp only [matchSegs, hstrip]
      rfl

/-- Soundness of a parameter group before a tail with the two end-anchor
targets: a success splits the input as an accepted capture, the tail target
and possibly the newline the end anchor tolerates. -/
theorem matchSegs_param_sound {segs' : List Seg} {suf0 : List Char}
    (hT : ∀ cs ps, matchSegs segs' cs = some ps ↔
      ((cs = suf0 ∨ cs = suf0 ++ ['\n']) ∧ ps = []))
    (kind nm : String) {cs : List Char} {ps : List (String × String)}
    (h : matchSegs (Seg.param kind nm :: segs') cs = some ps) :
    ∃ v, (cs = v ++ suf0 ∨ cs = v ++ suf0 ++ ['\n']) ∧
      kindAccepts kind v = true ∧ ps = [(nm, String.mk v)] := by
  simp only [matchSegs] at h
  obtain ⟨pr, hpr, hf⟩ := firstSome_eq_some h
  obtain ⟨tail, hm2, hf2⟩ := Option.map_eq_some'.mp hf
  obtain ⟨hor, htail⟩ := (hT pr.2 tail).mp hm2
  obtain ⟨heq, hacc⟩ := kindSplits_sound hpr
  subst hf2 htail
  rcases hor with h2 | h2
  · exact ⟨pr.1, Or.inl (by rw [heq, h2]), hacc, rfl⟩
  · exact ⟨pr.1, Or.inr (by rw [heq, h2, List.append_assoc]), hacc, rfl⟩

/-- Backtracking winner of a greedy character class: with every shorter rest
failing the tail match, the first success is the candidate whose rest is
exactly the given suffix. -/
theorem firstSome_greedy {γ : Type} {p : Char → Bool} {v suf0 : List Char}
    {f : List Char × List Char → Option γ} {a : γ}
    (hne : v ≠ []) (hall : v.all p = true)
    (hwin : f (v, suf0) = some a)
    (hfail : ∀ pr : List Char × List Char,
      pr.2.length < suf0.length → f pr = none) :
    firstSome (greedySplits p (v ++ suf0)) f = some a := by
  have h1 : 1 ≤ v.length := one_le_length_of_ne_nil hne
  have hLm : v.length ≤ ((v ++ suf0).takeWhile p).length := by
    rw [takeWhile_append_of_all hall]
    simp
  have hsp : splitsOfLen (v ++ suf0) v.length = (v, suf0) := by
    simp [splitsOfLen, List.take_left, List.drop_left]
  rw [greedySplits]
  refine firstSome_desc _ h1 hLm ?_ ?_
  · rw [hsp]
    exact hwin
  · intro L hgt hle
    have hmR : ((v ++ suf0).takeWhile p).length ≤ (v ++ suf0).length :=
      length_takeWhile_le _
    have hRlen : (v ++ suf0).length = v.length + suf0.length := by simp
    apply hfail
    show ((v ++ suf0).drop L).length < suf0.length
    rw [List.length_drop]
    omega

/-- The backtracking winner of a parameter group followed by a tail with the
two end-anchor targets: on an input splitting as an accepted capture before
the tail target, the engine's first success captures exactly that split,
whichever of the three classes the group uses. -/
theorem matchSegs_param_wins {segs' : List Seg} {suf0 : List Char}
    (hT : ∀ cs ps, matchSegs segs' cs = some ps ↔
      ((cs = suf0 ∨ cs = suf0 ++ ['\n']) ∧ ps = []))
    (kind nm : String) {v : List Char} (hacc : kindAccepts kind v = true) :
    matchSegs (Seg.param kind nm :: segs') (v ++ suf0)
      = some [(nm, String.mk v)] := by
  have hmt : matchSegs segs' suf0 = some [] := (hT suf0 []).mpr ⟨Or.inl rfl, rfl⟩
  have hend : ∀ X : List Char, X.length < suf0.length →
      matchSegs segs' X = none := by
    intro X hlt
    cases hx : matchSegs segs' X with
    | none => rfl
    | some ps =>
      obtain ⟨hor, _⟩ := (hT X ps).mp hx
      rcases hor with rfl | rfl
      · exact absurd hlt (Nat.lt_irrefl _)
      · rw [List.length_append, List.length_singleton] at hlt
        omega
  simp only [matchSegs]
  by_cases hk : kind = "int"
  · subst hk
    rw [kindSplits_int]
    rw [kindAccepts_int] at hacc
    cases v with
    | nil => rw [intShape] at hacc; exact absurd hacc (by simp)
    | cons c ds =>
      by_cases hc : c = '-'
      · subst hc
        rw [intShape, if_pos rfl] at hacc
        obtain ⟨hne, hall⟩ := pyIsDigit_iff.mp hacc
        rw [List.cons_append, intSplits, if_pos rfl, firstSome_map]
        refine firstSome_greedy hne hall ?_ ?_
        · show (matchSegs segs' suf0).map
            (fun ps => (nm, String.mk ('-' :: ds)) :: ps)
            = some [(nm, String.mk ('-' :: ds))]
          rw [hmt]
          rfl
        · intro pr hlt
          show (matchSegs segs' pr.2).map
            (fun ps => (nm, String.mk ('-' :: pr.1)) :: ps) = none
          rw [hend pr.2 hlt]
          rfl
      · rw [intShape, if_neg hc] at hacc
        obtain ⟨hne, hall⟩ := pyIsDigit_iff.mp hacc
        rw [List.cons_append, intSplits, if_neg hc, ← List.cons_append]
        refine firstSome_greedy (show (c :: ds : List Char) ≠ [] by simp) hall ?_ ?_
        · show (matchSegs segs' suf0).map
            (fun ps => (nm, String.mk (c :: ds)) :: ps)
            = some [(nm, String.mk (c :: ds))]
          rw [hmt]
          rfl
        · intro pr hlt
          show (matchSegs segs' pr.2).map
            (fun ps => (nm, String.mk pr.1) :: ps) = none
          rw [hend pr.2 hlt]
          rfl
  · by_cases hp : kind = "path"
    · subst hp
      rw [kindSplits_path]
      rw [kindAccepts_path, Bool.and_eq_true] at hacc
      have hne : v ≠ [] := by simpa [List.isEmpty_iff] using hacc.1
      have hall : v.all dotChar = true := hacc.2
      have h1 : 1 ≤ v.length := one_le_length_of_ne_nil hne
      have hLm : v.length ≤ ((v ++ suf0).takeWhile dotChar).length := by
        rw [takeWhile_append_of_all hall]
        simp
      have hsp : splitsOfLen (v ++ suf0) v.length = (v, suf0) := by
        simp [splitsOfLen, List.take_left, List.drop_left]
      rw [lazySplits]
      refine firstSome_asc _ h1 hLm ?_ ?_
      · rw [hsp]
        show (matchSegs segs' suf0).map (fun ps => (nm, String.mk v) :: ps)
          = some [(nm, String.mk v)]
        rw [hmt]
        rfl
      · intro L hL1 hLlt
        show (matchSegs segs' ((v ++ suf0).drop L)).map
          (fun ps => (nm, String.mk ((v ++ suf0).take L)) :: ps) = none
        have hdrop : (v ++ suf0).drop L = v.drop L ++ suf0 :=
          List.drop_append_of_le_length (by omega)
        rw [hdrop]
        have hlen : (v.drop L).length = v.length - L := List.length_drop _ _
        cases hm2 : matchSegs segs' (v.drop L ++ suf0) with
        | none => rfl
        | some ps =>
          exfalso
          obtain ⟨hor, _⟩ := (hT _ ps).mp hm2
          rcases hor with h2 | h2
          · have hle := congrArg List.length h2
            rw [List.length_append, hlen] at hle
            omega
          · have hle := congrArg List.length h2
            rw [List.length_append, List.length_append,
              List.length_singleton, hlen] at hle
            have hone : (v.drop L).length = 1 := by omega
            obtain ⟨c, hcv⟩ : ∃ c, v.drop L = [c] := by
              cases hd : v.drop L with
              | nil => rw [hd] at hone; simp at hone
              | cons c tl =>
                cases tl with
                | nil => exact ⟨c, rfl⟩
                | cons d tl2 =>
                  rw [hd] at hone
                  simp [List.length_cons] at hone
            rw [hcv] at h2
            have hcnl : c = '\n' := cons_eq_append_singleton suf0 h2
            have hmemv : c ∈ v := by
              have hmd : c ∈ v.drop L := by rw [hcv]; simp
              exact List.drop_subset _ _ hmd
            have hdc := List.all_eq_true.mp hall c hmemv
            rw [hcnl] at hdc
            simp [dotChar] at hdc
    · rw [kindSplits_other hk hp]
      rw [kindAccepts_other hk hp, Bool.and_eq_true] at hacc
      have hne : v ≠ [] := by simpa [List.isEmpty_iff] using hacc.1
      refine firstSome_greedy hne hacc.2 ?_ ?_
      · show (matchSegs segs' suf0).map (fun ps => (nm, String.mk v) :: ps)
          = some [(nm, String.mk v)]
        rw [hmt]
        rfl
      · intro pr hlt
        show (matchSegs segs' pr.2).map
          (fun ps => (nm, String.mk pr.1) :: ps) = none
        rw [hend pr.2 hlt]
        rfl

/-- The int group right before the end anchor also wins on an input carrying
the single trailing newline the anchor tolerates: the digit class cannot
absorb the newline, so the capture stops in front of it. -/
theorem matchSegs_int_param_end_nl (nm : String) {v : List Char}
    (hshape : intShape v = true) :
    matchSegs [Seg.param "int" nm] (v ++ ['\n']) = some [(nm, String.mk v)] := by
  have hnl : matchSegs [] ['\n'] = some [] := rfl
  simp only [matchSegs]
  rw [kindSplits_int]
  cases v with
  | nil => rw [intShape] at hshape; exact absurd hshape (by simp)
  | cons c ds =>
    by_cases hc : c = '-'
    · subst hc
      rw [intShape, if_pos rfl] at hshape
      obtain ⟨hne, hall⟩ := pyIsDigit_iff.mp hshape
      rw [List.cons_append, intSplits, if_pos rfl, firstSome_map]
      have htw : (ds ++ ['\n']).takeWhile isDigitChar = ds := by
        rw [takeWhile_append_of_all hall]
        simp [List.takeWhile, newline_not_digit]
      obtain ⟨k, hk⟩ : ∃ k, ds.length = k + 1 := by
        cases ds with
        | nil => exact absurd rfl hne
        | cons a l => exact ⟨l.length, rfl⟩
      rw [greedySplits, htw, hk, descLens_succ, List.map_cons]
      simp only [firstSome]
      have hsp : splitsOfLen (ds ++ ['\n']) (k + 1) = (ds, ['\n']) := by
        rw [← hk]
        simp [splitsOfLen, List.take_left, List.drop_left]
      rw [hsp, hnl]
      rfl
    · rw [intShape, if_neg hc] at hshape
      obtain ⟨hne, hall⟩ := pyIsDigit_iff.mp hshape
      rw [List.cons_append, intSplits, if_neg hc, ← List.cons_append]
      have htw : ((c :: ds) ++ ['\n']).takeWhile isDigitChar = c :: ds := by
        rw [takeWhile_append_of_all hall]
        simp [List.takeWhile, newline_not_digit]
      rw [greedySplits, htw]
      rw [show (c :: ds).length = ds.length + 1 from rfl, descLens_succ,
        List.map_cons]
      simp only [firstSome]
      have hsp : splitsOfLen ((c :: ds) ++ ['\n']) (ds.length + 1)
          = (c :: ds, ['\n']) := by
        rw [show ds.length + 1 = (c :: ds).length from rfl]
        simp [splitsOfLen, List.take_left, List.drop_left]
      rw [hsp, hnl]
      rfl

/-- Soundness of a leading metacharacter-free literal chunk, a parameter
group and a tail with the two end-anchor targets. -/
theorem matchSegs_lit_param_sound {pre : String} (hpre : metaFree pre.data = true)
    {segs' : List Seg} {suf0 : List Char}
    (hT : ∀ cs ps, matchSegs segs' cs = some ps ↔
      ((cs = suf0 ∨ cs = suf0 ++ ['\n']) ∧ ps = []))
    (kind nm : String) {cs : List Char} {ps : List (String × String)}
    (h : matchSegs (Seg.lit pre :: Seg.param kind nm :: segs') cs = some ps) :
    ∃ v, (cs = pre.data ++ v ++ suf0 ∨ cs = pre.data ++ v ++ suf0 ++ ['\n']) ∧
      kindAccepts kind v = true ∧ ps = [(nm, String.mk v)] := by
  simp only [matchSegs] at h
  cases hs : stripLit pre.data cs with
  | none => rw [hs] at h; exact absurd h (by simp)
  | some cs' =>
    rw [hs] at h
    obtain ⟨v, hor, hacc, hps⟩ := matchSegs_param_sound hT kind nm h
    refine ⟨v, ?_, hacc, hps⟩
    rw [stripLit_eq_append hpre hs]
    rcases hor with h2 | h2
    · exact Or.inl (by rw [h2, List.append_assoc])
    · exact Or.inr (by rw [h2]; simp)

/-- The winner through a leading metacharacter-free literal chunk. -/
theorem matchSegs_lit_param_wins {pre : String} (hpre : metaFree pre.data = true)
    {segs' : List Seg} {suf0 : List Char}
    (hT : ∀ cs ps, matchSegs segs' cs = some ps ↔
      ((cs = suf0 ∨ cs = suf0 ++ ['\n']) ∧ ps = []))
    (kind nm : String) {v : List Char} (hacc : kindAccepts kind v = true) :
    matchSegs (Seg.lit pre :: Seg.param kind nm :: segs')
      (pre.data ++ (v ++ suf0)) = some [(nm, String.mk v)] := by
  have hstrip : stripLit pre.data (pre.data ++ (v ++ suf0)) = some (v ++ suf0) :=
    stripLit_of_append hpre
  simp only [matchSegs, hstrip]
  exact matchSegs_param_wins hT kind nm hacc

/-! ### Lemmas: decimal printing and reparsing -/

theorem digitVal_digitChar {d : Nat} (h : d < 10) : digitVal (digitChar d) = d := by
  interval_cases d <;> decide

theorem isDigitChar_digitChar {d : Nat} (h : d < 10) :
    isDigitChar (digitChar d) = true := by
  interval_cases d <;> decide

theorem natDecimalAux_all_digit :
    ∀ (fuel n : Nat), n ≤ fuel → (natDecimalAux fuel n).all isDigitChar = true := by
  intro fuel
  induction fuel with
  | zero =>
    intro n hn
    have hz : n = 0 := by omega
    subst hz
    rw [natDecimalAux]
    simp [isDigitChar_digitChar (by omega : (0 : Nat) < 10)]
  | succ fuel ih =>
    intro n hn
    rw [natDecimalAux]
    by_cases h : n < 10
    · simp [h, isDigitChar_digitChar h]
    · have hdiv : n / 10 < n := Nat.div_lt_self (by omega) (by omega)
      simp only [if_neg h, List.all_append, Bool.and_eq_true]
      exact ⟨ih (n / 10) (by omega),
        by simp [isDigitChar_digitChar (Nat.mod_lt n (by omega))]⟩

theorem natDecimal_all_digit (n : Nat) : (natDecimal n).all isDigitChar = true :=
  natDecimalAux_all_digit n n (Nat.le_refl n)

theorem natDecimal_ne_nil (n : Nat) : natDecimal n ≠ [] := by
  rw [natDecimal]
  cases n with
  | zero => rw [natDecimalAux]; simp
  | succ n0 =>
    rw [natDecimalAux]
    by_cases h : n0 + 1 < 10
    · simp [h]
    · simp [h]

theorem natOfDigits_snoc (a : List Char) (c : Char) :
    natOfDigits (a ++ [c]) = natOfDigits a * 10 + digitVal c := by
  simp [natOfDigits, List.foldl_append]

theorem natOfDigits_natDecimalAux :
    ∀ (fuel n : Nat), n ≤ fuel → natOfDigits (natDecimalAux fuel n) = n := by
  intro fuel
  induction fuel with
  | zero =>
    intro n hn
    have hz : n = 0 := by omega
    subst hz
    rw [natDecimalAux]
    simp [natOfDigits, digitVal_digitChar (by omega : (0 : Nat) < 10)]
  | succ fuel ih =>
    intro n hn
    rw [natDecimalAux]
    by_cases h : n < 10
    · simp [h, natOfDigits, digitVal_digitChar h]
    · have hdiv : n / 10 < n := Nat.div_lt_self (by omega) (by omega)
      rw [if_neg h, natOfDigits_snoc, ih (n / 10) (by omega),
        digitVal_digitChar (Nat.mod_lt n (by omega))]
      omega

theorem natOfDigits_natDecimal (n : Nat) : natOfDigits (natDecimal n) = n :=
  natOfDigits_natDecimalAux n n (Nat.le_refl n)

theorem data_mk (cs : List Char) : (String.mk cs).data = cs := rfl

theorem mk_data (s : String) : String.mk s.data = s := rfl

theorem intShape_pyStr (n : Int) : intShape (pyStrOfInt n).data = true := by
  by_cases h : n < 0
  · simp only [pyStrOfInt, if_pos h, data_mk, intShape, if_pos rfl]
    exact pyIsDigit_iff.mpr ⟨natDecimal_ne_nil _, natDecimal_all_digit _⟩
  · simp only [pyStrOfInt, if_neg h, data_mk]
    exact all_digit_shape (natDecimal_ne_nil _) (natDecimal_all_digit _)

theorem intConverter_mk_digits {ds : List Char} (hne : ds ≠ [])
    (hall : ds.all isDigitChar = true) :
    intConverter (String.mk ds) = some ((natOfDigits ds : Int)) := by
  cases ds with
  | nil => exact absurd rfl hne
  | cons d ds0 =>
    have hdc : isDigitChar d = true := by
      simp only [List.all_cons, Bool.and_eq_true] at hall
      exact hall.1
    have hdm : d ≠ '-' := by
      intro hcc
      rw [hcc, minus_not_digit] at hdc
      exact absurd hdc (by simp)
    simp only [intConverter, data_mk, intConvChars, if_neg hdm,
      if_pos (pyIsDigit_iff.mpr ⟨by simp, hall⟩)]

theorem intConverter_pyStr (n : Int) : intConverter (pyStrOfInt n) = some n := by
  by_cases h : n < 0
  · simp only [pyStrOfInt, if_pos h, intConverter, data_mk, intConvChars, if_pos rfl,
      if_pos (pyIsDigit_iff.mpr ⟨natDecimal_ne_nil _, natDecimal_all_digit _⟩),
      natOfDigits_natDecimal, Option.some_inj]
    rw [Int.ofNat_natAbs_of_nonpos (le_of_lt h), neg_neg]
    simp
  · rw [pyStrOfInt, if_neg h,
      intConverter_mk_digits (natDecimal_ne_nil _) (natDecimal_all_digit _),
      natOfDigits_natDecimal]
    congr 1
    exact Int.natAbs_of_nonneg (by omega)

/-! ### Lemmas: strings, substring search and replacement -/

theorem string_eq_of_data {a b : String} (h : a.data = b.data) : a = b := by
  cases a with
  | mk da =>
    cases b with
    | mk db => exact congrArg String.mk h

theorem isPrefixOfChars_cons_eq (a : Char) (as bs : List Char) :
    isPrefixOfChars (a :: as) (a :: bs) = isPrefixOfChars as bs := by
  simp [isPrefixOfChars]

theorem isPrefixOfChars_cons_ne {a b : Char} (h : a ≠ b) (as bs : List Char) :
    isPrefixOfChars (a :: as) (b :: bs) = false := by
  simp [isPrefixOfChars, h]

theorem isPrefixOfChars_append_same (a b c : List Char) :
    isPrefixOfChars (a ++ b) (a ++ c) = isPrefixOfChars b c := by
  induction a with
  | nil => rfl
  | cons x xs ih => simpa [isPrefixOfChars] using ih

theorem isPrefixOfChars_self_append (a b : List Char) :
    isPrefixOfChars a (a ++ b) = true := by
  induction a with
  | nil => rfl
  | cons x xs ih => simpa [isPrefixOfChars] using ih

theorem containsSub_lt_free {cs ps : List Char} (h : ∀ c ∈ cs, c ≠ '<') :
    containsSub cs ('<' :: ps) = false := by
  induction cs with
  | nil => rfl
  | cons c rest ih =>
    have hc : c ≠ '<' := h c (by simp)
    have hne : ('<' : Char) ≠ c := fun hx => hc hx.symm
    simp only [containsSub, isPrefixOfChars_cons_ne hne, Bool.false_or]
    exact ih (fun x hx => h x (by simp [hx]))

theorem containsSub_append_lt_free {pre rest ps : List Char}
    (h : ∀ c ∈ pre, c ≠ '<') :
    containsSub (pre ++ rest) ('<' :: ps) = containsSub rest ('<' :: ps) := by
  induction pre with
  | nil => rfl
  | cons c cs ih =>
    have hc : c ≠ '<' := h c (by simp)
    have hne : ('<' : Char) ≠ c := fun hx => hc hx.symm
    simp only [List.cons_append, containsSub, isPrefixOfChars_cons_ne hne,
      Bool.false_or]
    exact ih (fun x hx => h x (by simp [hx]))

theorem containsSub_at_token {tokTail suf ps : List Char}
    (htok : ∀ c ∈ tokTail, c ≠ '<') (hsuf : ∀ c ∈ suf, c ≠ '<') :
    containsSub (('<' :: tokTail) ++ suf) ('<' :: ps)
      = isPrefixOfChars ps (tokTail ++ suf) := by
  simp only [List.cons_append, containsSub, isPrefixOfChars_cons_eq, List.append_eq]
  have h2 : containsSub (tokTail ++ suf) ('<' :: ps) = false := by
    rw [containsSub_append_lt_free htok]
    exact containsSub_lt_free hsuf
  rw [h2, Bool.or_false]

theorem replaceAllAux_lt_free {ps rep : List Char} :
    ∀ (fuel : Nat) (cs : List Char), (∀ c ∈ cs, c ≠ '<') →
      replaceAllAux ('<' :: ps) rep fuel cs = cs := by
  intro fuel
  induction fuel with
  | zero =>
    intro cs _
    cases cs with
    | nil => rfl
    | cons c rest => rfl
  | succ fuel ih =>
    intro cs h
    cases cs with
    | nil => rfl
    | cons c rest =>
      have hc : c ≠ '<' := h c (by simp)
      have hne : ('<' : Char) ≠ c := fun hx => hc hx.symm
      rw [replaceAllAux, if_neg (by simp [isPrefixOfChars_cons_ne hne])]
      rw [ih rest (fun x hx => h x (by simp [hx]))]

theorem replaceAll_lt_free {cs ps rep : List Char} (h : ∀ c ∈ cs, c ≠ '<') :
    replaceAll cs ('<' :: ps) rep = cs :=
  replaceAllAux_lt_free cs.length cs h

theorem replaceAllAux_once {tokTail suf rep : List Char}
    (hsuf : ∀ c ∈ suf, c ≠ '<') :
    ∀ (pre : List Char) (fuel : Nat),
      (pre ++ ('<' :: tokTail) ++ suf).length ≤ fuel →
      (∀ c ∈ pre, c ≠ '<') →
      replaceAllAux ('<' :: tokTail) rep fuel (pre ++ ('<' :: tokTail) ++ suf)
        = pre ++ rep ++ suf := by
  intro pre
  induction pre with
  | nil =>
    intro fuel hf _
    cases fuel with
    | zero =>
      simp only [List.nil_append, List.length_append, List.length_cons] at hf
      omega
    | succ fuel =>
      have hp : isPrefixOfChars ('<' :: tokTail) ('<' :: (tokTail ++ suf)) = true := by
        rw [isPrefixOfChars_cons_eq]
        exact isPrefixOfChars_self_append tokTail suf
      simp only [List.nil_append, List.cons_append]
      rw [replaceAllAux, if_pos ⟨by simp, hp⟩]
      rw [show ('<' :: (tokTail ++ suf)) = ('<' :: tokTail) ++ suf by simp]
      rw [List.drop_left, replaceAllAux_lt_free fuel suf hsuf]
  | cons c cs ih =>
    intro fuel hf hpre
    cases fuel with
    | zero =>
      simp only [List.cons_append, List.length_cons] at hf
      omega
    | succ fuel =>
      have hc : c ≠ '<' := hpre c (by simp)
      have hne : ('<' : Char) ≠ c := fun hx => hc hx.symm
      have hrw : (c :: cs) ++ ('<' :: tokTail) ++ suf
          = c :: (cs ++ ('<' :: tokTail) ++ suf) := by simp
      rw [hrw, replaceAllAux, if_neg (by simp [isPrefixOfChars_cons_ne hne])]
      have hf' : (cs ++ ('<' :: tokTail) ++ suf).length ≤ fuel := by
        rw [hrw] at hf
        simp only [List.length_cons] at hf
        omega
      rw [ih fuel hf' (fun x hx => hpre x (by simp [hx]))]
      simp

theorem replaceAll_once {pre tokTail suf rep : List Char}
    (hpre : ∀ c ∈ pre, c ≠ '<') (hsuf : ∀ c ∈ suf, c ≠ '<') :
    replaceAll (pre ++ ('<' :: tokTail) ++ suf) ('<' :: tokTail) rep
      = pre ++ rep ++ suf :=
  replaceAllAux_once hsuf pre _ (Nat.le_refl _) hpre

theorem tokenText_data (kind nm : String) :
    (tokenText kind nm).data = '<' :: (kind.data ++ ':' :: (nm.data ++ ['>'])) := by
  simp [tokenText, String.data_append]

/-! ### Lemmas: the Python dict model -/

theorem dictFind_insert_self {β : Type} (l : List (String × β)) (k : String) (v : β) :
    dictFind (dictInsert l k v) k = some v := by
  induction l with
  | nil => simp [dictInsert, dictFind]
  | cons pr rest ih =>
    by_cases h : pr.1 = k
    · simp [dictInsert, h, dictFind]
    · cases pr with
      | mk k' v' =>
        simp only at h
        simp [dictInsert, h, dictFind, ih]

theorem dictFind_insert_ne {β : Type} (l : List (String × β)) {k k' : String}
    (v : β) (h : k' ≠ k) : dictFind (dictInsert l k v) k' = dictFind l k' := by
  induction l with
  | nil => simp [dictInsert, dictFind, Ne.symm h]
  | cons pr rest ih =>
    cases pr with
    | mk k0 v0 =>
      by_cases h0 : k0 = k
      · subst h0
        simp [dictInsert, dictFind, Ne.symm h]
      · simp only [dictInsert, if_neg h0, dictFind]
        by_cases h1 : k0 = k'
        · simp [h1]
        · simp [h1, ih]

theorem dictFind_eq_none_iff {β : Type} {l : List (String × β)} {k : String} :
    dictFind l k = none ↔ k ∉ l.map Prod.fst := by
  induction l with
  | nil => simp [dictFind]
  | cons pr rest ih =>
    cases pr with
    | mk k0 v0 =>
      by_cases h0 : k0 = k
      · subst h0
        simp [dictFind]
      · simp [dictFind, h0, ih, Ne.symm h0]

theorem dictInsert_of_none {β : Type} {l : List (String × β)} {k : String}
    (h : dictFind l k = none) (v : β) : dictInsert l k v = l ++ [(k, v)] := by
  induction l with
  | nil => rfl
  | cons pr rest ih =>
    cases pr with
    | mk k0 v0 =>
      by_cases h0 : k0 = k
      · subst h0
        simp [dictFind] at h
      · simp only [dictFind, if_neg h0] at h
        simp [dictInsert, h0, ih h]

/-! ### Lemmas: the dynamic scan -/

theorem resolveDynamic_skip {α : Type} (l1 rest : List (Route α))
    (path m : String)
    (h : ∀ rt ∈ l1, rt.methods.contains m = true → rt.matchPath path = none) :
    resolveDynamic (l1 ++ rest) path m = resolveDynamic rest path m := by
  induction l1 with
  | nil => rfl
  | cons rt l1 ih =>
    simp only [List.cons_append, resolveDynamic]
    by_cases hm : rt.methods.contains m = true
    · rw [if_pos hm, h rt (by simp) hm]
      exact ih (fun r hr hc => h r (by simp [hr]) hc)
    · rw [if_neg hm]
      exact ih (fun r hr hc => h r (by simp [hr]) hc)

/-! ### Lemmas: routes and conversion -/

theorem contains_lt {cs : List Char} (h : '<' ∈ cs) : cs.contains '<' = true := by
  simpa [List.contains] using List.elem_eq_true_of_mem h

theorem isStaticB_false {α : Type} {r : Route α} (h : '<' ∈ r.path.data) :
    r.isStaticB = false := by
  rw [Route.isStaticB, contains_lt h]
  rfl

theorem matchPath_dynamic {α : Type} {r : Route α} (h : r.isStaticB = false)
    (path : String) :
    r.matchPath path = (matchSegs r.segs path.data).map
      (fun ps => ps.map (fun pr =>
        (pr.1, applyConverter (kindOfName r.segs pr.1) pr.2))) := by
  simp [Route.matchPath, h]

theorem kindOfName_two (pre : String) (kind nm : String) :
    kindOfName [Seg.lit pre, Seg.param kind nm] nm = kind := by
  simp [kindOfName]

theorem kindOfName_three (pre suf : String) (kind nm : String) :
    kindOfName [Seg.lit pre, Seg.param kind nm, Seg.lit suf] nm = kind := by
  simp [kindOfName]

theorem applyConverter_not_int {kind : String} (h : kind ≠ "int") (raw : String) :
    applyConverter kind raw = PValue.str raw := by
  simp [applyConverter, h]

theorem applyConverter_int {s : String} {k : Int} (h : intConverter s = some k) :
    applyConverter "int" s = PValue.int k := by
  simp [applyConverter, h]

theorem intShape_of_converter {s : String} {k : Int}
    (h : intConverter s = some k) : intShape s.data = true := by
  cases hs : s.data with
  | nil =>
    rw [intConverter, hs, intConvChars] at h
    exact absurd h (by simp)
  | cons c rest =>
    rw [intConverter, hs, intConvChars] at h
    by_cases hc : c = '-'
    · subst hc
      rw [if_pos rfl] at h
      by_cases hd : pyIsDigit rest = true
      · rw [intShape, if_pos rfl]
        exact hd
      · rw [if_neg hd] at h
        exact absurd h (by simp)
    · rw [if_neg hc] at h
      by_cases hd : pyIsDigit (c :: rest) = true
      · rw [intShape, if_neg hc]
        exact hd
      · rw [if_neg hd] at h
        exact absurd h (by simp)

theorem converter_of_intShape {v : List Char} (h : intShape v = true) :
    ∃ k : Int, intConverter (String.mk v) = some k := by
  cases v with
  | nil => rw [intShape] at h; exact absurd h (by simp)
  | cons c rest =>
    by_cases hc : c = '-'
    · subst hc
      rw [intShape, if_pos rfl] at h
      exact ⟨-(natOfDigits rest : Int),
        by rw [intConverter, data_mk, intConvChars, if_pos rfl, if_pos h]⟩
    · rw [intShape, if_neg hc] at h
      exact ⟨(natOfDigits (c :: rest) : Int),
        by rw [intConverter, data_mk, intConvChars, if_neg hc, if_pos h]⟩

/-! ### Registration sequences (for the route-table invariant) -/



theorem routerInv_empty {α : Type} : routerInv (emptyRouter : Router α) := by
  refine ⟨by simp [emptyRouter], by simp [emptyRouter], by simp [emptyRouter]⟩

theorem addRoute_success_static {α : Type} {r : Router α} {path : String}
    {handler : α} {ms : List String} {e : String}
    (hde : dictFind r.endpoints e = none)
    (hst : Route.isStaticB (⟨path, handler, ms, e⟩ : Route α) = true) :
    addRoute r path handler ms e =
      ({ r with
          static_routes := dictInsert r.static_routes path ⟨path, handler, ms, e⟩,
          endpoints := dictInsert r.endpoints e ⟨path, handler, ms, e⟩ }, none) := by
  simp [addRoute, hde, hst]

theorem addRoute_success_dynamic {α : Type} {r : Router α} {path : String}
    {handler : α} {ms : List String} {e : String}
    (hde : dictFind r.endpoints e = none)
    (hst : Route.isStaticB (⟨path, handler, ms, e⟩ : Route α) = false) :
    addRoute r path handler ms e =
      ({ r with
          dynamic_routes := r.dynamic_routes ++ [⟨path, handler, ms, e⟩],
          endpoints := dictInsert r.endpoints e ⟨path, handler, ms, e⟩ }, none) := by
  simp [addRoute, hde, hst]

theorem addRoute_error_of_dup {α : Type} {r : Router α} {e : String}
    (path : String) (handler : α) (ms : List String)
    (hdup : (dictFind r.endpoints e).isSome = true) :
    addRoute r path handler ms e
      = (r, some ("Endpoint \"" ++ e ++ "\" is already registered.")) := by
  rw [addRoute, if_pos hdup]

theorem perm_snoc_append {γ : Type} (a b : List γ) (x : γ) :
    ((a ++ [x]) ++ b).Perm ((a ++ b) ++ [x]) := by
  rw [List.append_assoc, List.append_assoc]
  exact List.Perm.append_left a List.perm_append_comm

theorem addRoute_inv {α : Type} {r : Router α} {path : String} {handler : α}
    {ms : List String} {e : String} {r' : Router α}
    (hstep : addRoute r path handler ms e = (r', none))
    (hfresh : Route.isStaticB (⟨path, handler, ms, e⟩ : Route α) = true →
      dictFind r.static_routes path = none)
    (hinv : routerInv r) : routerInv r' := by
  obtain ⟨hnd, hown, hperm⟩ := hinv
  by_cases hdup : (dictFind r.endpoints e).isSome
  · rw [addRoute_error_of_dup path handler ms hdup] at hstep
    exact absurd (congrArg Prod.snd hstep) (by simp)
  · have hde : dictFind r.endpoints e = none := by
      cases hfind : dictFind r.endpoints e with
      | none => rfl
      | some x =>
        rw [hfind] at hdup
        simp at hdup
    have hkey : e ∉ r.endpoints.map Prod.fst := dictFind_eq_none_iff.mp hde
    have hape : dictInsert r.endpoints e (⟨path, handler, ms, e⟩ : Route α)
        = r.endpoints ++ [(e, ⟨path, handler, ms, e⟩)] := dictInsert_of_none hde _
    by_cases hst : Route.isStaticB (⟨path, handler, ms, e⟩ : Route α) = true
    · have hsfresh := hfresh hst
      rw [addRoute_success_static hde hst] at hstep
      have hr' : r' = { r with
          static_routes := r.static_routes ++ [(path, ⟨path, handler, ms, e⟩)],
          endpoints := r.endpoints ++ [(e, ⟨path, handler, ms, e⟩)] } := by
        have h1 := congrArg Prod.fst hstep
        simp only at h1
        rw [← h1, hape, dictInsert_of_none hsfresh]
      subst hr'
      refine ⟨?_, ?_, ?_⟩
      · simp only [List.map_append, List.map_cons, List.map_nil]
        rw [List.nodup_append]
        exact ⟨hnd, by simp, by simpa using hkey⟩
      · intro pr hpr
        rcases List.mem_append.mp hpr with h1 | h1
        · exact hown pr h1
        · simp only [List.mem_singleton] at h1
          subst h1
          rfl
      · simp only [List.map_append, List.map_cons, List.map_nil]
        exact (perm_snoc_append _ _ _).trans (List.Perm.append_right _ hperm)
    · have hst' : Route.isStaticB (⟨path, handler, ms, e⟩ : Route α) = false := by
        cases hx : Route.isStaticB (⟨path, handler, ms, e⟩ : Route α) with
        | true => exact absurd hx hst
        | false => rfl
      rw [addRoute_success_dynamic hde hst'] at hstep
      have hr' : r' = { r with
          dynamic_routes := r.dynamic_routes ++ [⟨path, handler, ms, e⟩],
          endpoints := r.endpoints ++ [(e, ⟨path, handler, ms, e⟩)] } := by
        have h1 := congrArg Prod.fst hstep
        simp only at h1
        rw [← h1, hape]
      subst hr'
      refine ⟨?_, ?_, ?_⟩
      · simp only [List.map_append, List.map_cons, List.map_nil]
        rw [List.nodup_append]
        exact ⟨hnd, by simp, by simpa using hkey⟩
      · intro pr hpr
        rcases List.mem_append.mp hpr with h1 | h1
        · exact hown pr h1
        · simp only [List.mem_singleton] at h1
          subst h1
          rfl
      · simp only [List.map_append, List.map_cons, List.map_nil]
        rw [← List.append_assoc]
        exact List.Perm.append_right _ hperm

theorem addRoute_fresh_endpoint {α : Type} {r r1 : Router α} {p : String}
    {hd : α} {ms : List String} {e : String}
    (hstep : addRoute r p hd ms e = (r1, none)) :
    dictFind r.endpoints e = none := by
  cases hfind : dictFind r.endpoints e with
  | none => rfl
  | some x =>
    rw [addRoute_error_of_dup p hd ms (by simp [hfind])] at hstep
    exact absurd (congrArg Prod.snd hstep) (by simp)


theorem registerAll_inv {α : Type} :
    ∀ (regs : List (String × α × List String × String)) (r r' : Router α),
    registerAll r regs = some r' →
    routerInv r →
    (staticPaths regs).Nodup →
    (∀ q ∈ regs, (!(q.1.data.contains '<')) = true →
      dictFind r.static_routes q.1 = none) →
    routerInv r' := by
  intro regs
  induction regs with
  | nil =>
    intro r r' h hinv _ _
    rw [registerAll] at h
    cases h
    exact hinv
  | cons q rest ih =>
    intro r r' h hinv hnodup hfresh
    obtain ⟨p, hd, ms, e⟩ := q
    rw [registerAll] at h
    cases hstep : addRoute r p hd ms e with
    | mk r1 err =>
      rw [hstep] at h
      cases err with
      | some msg => exact absurd h (by simp)
      | none =>
        have hstat : Route.isStaticB (⟨p, hd, ms, e⟩ : Route α)
            = !(p.data.contains '<') := rfl
        have hinv1 : routerInv r1 :=
          addRoute_inv hstep
            (fun hst => hfresh (p, hd, ms, e) (by simp) (hstat ▸ hst)) hinv
        have hde : dictFind r.endpoints e = none := addRoute_fresh_endpoint hstep
        by_cases hst : Route.isStaticB (⟨p, hd, ms, e⟩ : Route α) = true
        · have hhead : (!(p.data.contains '<')) = true := hstat ▸ hst
          have hpaths : staticPaths ((p, hd, ms, e) :: rest)
              = p :: staticPaths (rest : List (String × α × List String × String)) := by
            rw [staticPaths,
              @List.filter_cons_of_pos _ (fun q => !q.1.data.contains '<')
                (p, hd, ms, e) rest hhead]
            rfl
          rw [hpaths] at hnodup
          have hs1 : r1.static_routes
              = dictInsert r.static_routes p ⟨p, hd, ms, e⟩ := by
            rw [addRoute_success_static hde hst] at hstep
            exact (congrArg (fun x => (Prod.fst x).static_routes) hstep).symm
          apply ih r1 r' h hinv1 (List.Nodup.of_cons hnodup)
          intro q' hq' hq'static
          have hne : q'.1 ≠ p := by
            intro hqp
            have hmem : q'.1 ∈ staticPaths (rest : List (String × α × List String × String)) := by
              simp only [staticPaths, List.mem_map, List.mem_filter]
              exact ⟨q', ⟨hq', hq'static⟩, rfl⟩
            rw [hqp] at hmem
            exact (List.nodup_cons.mp hnodup).1 hmem
          rw [hs1, dictFind_insert_ne _ _ hne]
          exact hfresh q' (by simp [hq']) hq'static
        · have hst' : Route.isStaticB (⟨p, hd, ms, e⟩ : Route α) = false := by
            cases hx : Route.isStaticB (⟨p, hd, ms, e⟩ : Route α) with
            | true => exact absurd hx hst
            | false => rfl
          have hhead : (!(p.data.contains '<')) = false := hstat ▸ hst'
          have hpaths : staticPaths ((p, hd, ms, e) :: rest)
              = staticPaths (rest : List (String × α × List String × String)) := by
            rw [staticPaths,
              @List.filter_cons_of_neg _ (fun q => !q.1.data.contains '<')
                (p, hd, ms, e) rest (by
                  intro hcontra
                  have hb : (!p.data.contains '<') = true := hcontra
                  rw [hhead] at hb
                  exact Bool.false_ne_true hb)]
            rfl
          rw [hpaths] at hnodup
          have hs1 : r1.static_routes = r.static_routes := by
            rw [addRoute_success_dynamic hde hst'] at hstep
            exact (congrArg (fun x => (Prod.fst x).static_routes) hstep).symm
          apply ih r1 r' h hinv1 hnodup
          intro q' hq' hq'static
          rw [hs1]
          exact hfresh q' (by simp [hq']) hq'static

theorem resolve_static_found {α : Type} {r : Router α} {p : String}
    {rt : Route α} (m : String) (hfind : dictFind r.static_routes p = some rt) :
    resolve r p m = (if rt.methods.contains m then Except.ok (rt.handler, [])
      else Except.error ResolveErr.methodNotAllowed) := by
  simp [resolve, hfind]

theorem resolve_static_none {α : Type} {r : Router α} {p : String} (m : String)
    (hfind : dictFind r.static_routes p = none) :
    resolve r p m = resolveDynamic r.dynamic_routes p m := by
  simp [resolve, hfind]

theorem resolveDynamic_cons_match {α : Type} {rt : Route α}
    {rest : List (Route α)} {path m : String} {ps : List (String × PValue)}
    (hm : rt.methods.contains m = true) (hmatch : rt.matchPath path = some ps) :
    resolveDynamic (rt :: rest) path m = Except.ok (rt.handler, ps) := by
  rw [resolveDynamic, if_pos hm, hmatch]

theorem resolveDynamic_cons_skip {α : Type} {rt : Route α}
    {rest : List (Route α)} {path m : String}
    (h : rt.methods.contains m = true → rt.matchPath path = none) :
    resolveDynamic (rt :: rest) path m = resolveDynamic rest path m := by
  by_cases hm : rt.methods.contains m = true
  · rw [resolveDynamic, if_pos hm, h hm]
  · rw [resolveDynamic, if_neg hm]

theorem resolve_single_dynamic_ok_iff {α : Type} (rt : Route α)
    (eps : List (String × Route α)) (path m : String)
    (hm : rt.methods.contains m = true) (res : α × List (String × PValue)) :
    resolve (⟨[], [rt], eps⟩ : Router α) path m = Except.ok res ↔
      ∃ ps, rt.matchPath path = some ps ∧ res = (rt.handler, ps) := by
  rw [resolve_static_none m
    (show dictFind (Router.static_routes (⟨[], [rt], eps⟩ : Router α)) path = none
      from rfl)]
  constructor
  · intro h
    rw [resolveDynamic, if_pos hm] at h
    cases hmatch : rt.matchPath path with
    | none =>
      rw [hmatch] at h
      rw [resolveDynamic] at h
      exact absurd h (by simp)
    | some ps =>
      rw [hmatch] at h
      simp only [Except.ok.injEq] at h
      exact ⟨ps, rfl, h.symm⟩
  · rintro ⟨ps, hmatch, rfl⟩
    rw [resolveDynamic, if_pos hm, hmatch]

/-- The end-anchor characterization of the empty pattern tail, in the shape
the parameter lemmas take (an empty tail target). -/
theorem matchSegs_nil_end_shaped :
    ∀ (cs : List Char) (ps : List (String × String)),
    matchSegs [] cs = some ps ↔
      ((cs = ([] : List Char) ∨ cs = [] ++ ['\n']) ∧ ps = []) := by
  intro cs ps
  rw [matchSegs_nil_end cs ps, List.nil_append]

theorem matchPath_lit_param_sound {α : Type} (rt : Route α) (pre kind nm : String)
    (hpre : metaFree pre.data = true)
    (hsegs : rt.segs = [Seg.lit pre, Seg.param kind nm])
    (hst : rt.isStaticB = false) (path : String) (ps : List (String × PValue))
    (h : rt.matchPath path = some ps) :
    ∃ v, (path.data = pre.data ++ v ∨ path.data = pre.data ++ v ++ ['\n']) ∧
      kindAccepts kind v = true ∧
      ps = [(nm, applyConverter kind (String.mk v))] := by
  rw [matchPath_dynamic hst, hsegs] at h
  obtain ⟨raw, hraw, hconv⟩ := Option.map_eq_some'.mp h
  obtain ⟨v, hor, hacc, hps⟩ :=
    matchSegs_lit_param_sound hpre matchSegs_nil_end_shaped kind nm hraw
  refine ⟨v, ?_, hacc, ?_⟩
  · rcases hor with h2 | h2
    · exact Or.inl (by simpa using h2)
    · exact Or.inr (by simpa using h2)
  · subst hps
    rw [← hconv]
    simp [kindOfName_two]

theorem matchPath_lit_param_wins {α : Type} (rt : Route α) (pre kind nm : String)
    (hpre : metaFree pre.data = true)
    (hsegs : rt.segs = [Seg.lit pre, Seg.param kind nm])
    (hst : rt.isStaticB = false) {v : List Char} (hacc : kindAccepts kind v = true)
    (path : String) (hpath : path.data = pre.data ++ v) :
    rt.matchPath path = some [(nm, applyConverter kind (String.mk v))] := by
  rw [matchPath_dynamic hst, hsegs]
  have hm : matchSegs [Seg.lit pre, Seg.param kind nm] path.data
      = some [(nm, String.mk v)] := by
    rw [hpath, show pre.data ++ v = pre.data ++ (v ++ []) by simp]
    exact matchSegs_lit_param_wins hpre matchSegs_nil_end_shaped kind nm hacc
  rw [hm]
  simp [kindOfName_two]

theorem matchPath_lit_param_int_nl {α : Type} (rt : Route α) (pre nm : String)
    (hpre : metaFree pre.data = true)
    (hsegs : rt.segs = [Seg.lit pre, Seg.param "int" nm])
    (hst : rt.isStaticB = false) {v : List Char} (hshape : intShape v = true)
    (path : String) (hpath : path.data = pre.data ++ (v ++ ['\n'])) :
    rt.matchPath path = some [(nm, applyConverter "int" (String.mk v))] := by
  rw [matchPath_dynamic hst, hsegs]
  have hm : matchSegs [Seg.lit pre, Seg.param "int" nm] path.data
      = some [(nm, String.mk v)] := by
    rw [hpath]
    have hstrip : stripLit pre.data (pre.data ++ (v ++ ['\n'])) = some (v ++ ['\n']) :=
      stripLit_of_append hpre
    simp only [matchSegs, hstrip]
    have hinner := matchSegs_int_param_end_nl nm hshape
    simpa [matchSegs] using hinner
  rw [hm]
  simp [kindOfName_two]

theorem matchPath_lit_param_lit_wins {α : Type} (rt : Route α)
    (pre suf kind nm : String)
    (hpre : metaFree pre.data = true) (hsuf : metaFree suf.data = true)
    (hsegs : rt.segs = [Seg.lit pre, Seg.param kind nm, Seg.lit suf])
    (hst : rt.isStaticB = false) {v : List Char} (hacc : kindAccepts kind v = true)
    (path : String) (hpath : path.data = pre.data ++ v ++ suf.data) :
    rt.matchPath path = some [(nm, applyConverter kind (String.mk v))] := by
  rw [matchPath_dynamic hst, hsegs]
  have hm : matchSegs [Seg.lit pre, Seg.param kind nm, Seg.lit suf] path.data
      = some [(nm, String.mk v)] := by
    rw [hpath, List.append_assoc]
    exact matchSegs_lit_param_wins hpre (matchSegs_lit_end hsuf) kind nm hacc
  rw [hm]
  simp [kindOfName_three]

theorem containsSub_token_in_path {pre suf tokTail probeTail : List Char}
    (hpre : ∀ c ∈ pre, c ≠ '<') (htok : ∀ c ∈ tokTail, c ≠ '<')
    (hsuf : ∀ c ∈ suf, c ≠ '<') :
    containsSub (pre ++ ('<' :: tokTail) ++ suf) ('<' :: probeTail)
      = isPrefixOfChars probeTail (tokTail ++ suf) := by
  rw [List.append_assoc, containsSub_append_lt_free hpre,
    containsSub_at_token htok hsuf]

theorem tokTail_lt_free {kd : List Char} (hk : ∀ c ∈ kd, c ≠ '<')
    {nmd : List Char} (hnm : ∀ c ∈ nmd, c ≠ '<') :
    ∀ c ∈ (kd ++ ':' :: (nmd ++ ['>'])), c ≠ '<' := by
  intro c hc
  rcases List.mem_append.mp hc with h1 | h1
  · exact hk c h1
  · rcases List.mem_cons.mp h1 with rfl | h2
    · decide
    · rcases List.mem_append.mp h2 with h3 | h3
      · exact hnm c h3
      · rcases List.mem_cons.mp h3 with rfl | h4
        · decide
        · exact absurd h4 (List.not_mem_nil c)

theorem isPrefixOfChars_append_ne {a b : List Char} {x y : Char} (hxy : x ≠ y)
    (as bs : List Char) :
    isPrefixOfChars ((x :: a) ++ as) ((y :: b) ++ bs) = false := by
  simp only [List.cons_append]
  exact isPrefixOfChars_cons_ne hxy _ _

theorem isPrefixOfChars_token_self (kd X suf : List Char) :
    isPrefixOfChars (kd ++ X) ((kd ++ X) ++ suf) = true :=
  isPrefixOfChars_self_append _ _

/-- The reverse-then-forward trip through url_for and resolve for a route
whose pattern is literal text, one parameter token, then literal text, given
the probe computation of url_for lands on the route's own kind and the
stringified value is accepted by the kind's capture class. -/
theorem urlFor_resolve_one_token {α : Type} (h : α) (pre suf kind nm : String)
    (ms : List String) (m e : String) (v : PyVal)
    (hpre : metaFree pre.data = true) (hsuf : metaFree suf.data = true)
    (hpreLt : ∀ c ∈ pre.data, c ≠ '<') (hsufLt : ∀ c ∈ suf.data, c ≠ '<')
    (hsegs : scanSegs (pre ++ tokenText kind nm ++ suf).data
      = [Seg.lit pre, Seg.param kind nm, Seg.lit suf])
    (hfindk : typeKeys.find? (fun k =>
        containsSub (pre ++ tokenText kind nm ++ suf).data (tokenText k nm).data)
      = some kind)
    (hm : ms.contains m = true)
    (hacc : kindAccepts kind (pyStr v).data = true)
    (hconv : applyConverter kind (pyStr v) = pvalOf v) :
    urlFor (⟨[], [⟨pre ++ tokenText kind nm ++ suf, h, ms, e⟩],
        [(e, ⟨pre ++ tokenText kind nm ++ suf, h, ms, e⟩)]⟩ : Router α) e [(nm, v)]
      = Except.ok (pre ++ pyStr v ++ suf) ∧
    resolve (⟨[], [⟨pre ++ tokenText kind nm ++ suf, h, ms, e⟩],
        [(e, ⟨pre ++ tokenText kind nm ++ suf, h, ms, e⟩)]⟩ : Router α)
      (pre ++ pyStr v ++ suf) m = Except.ok (h, [(nm, pvalOf v)]) := by
  have hltTok : '<' ∈ (pre ++ tokenText kind nm ++ suf).data := by
    simp only [String.data_append, List.mem_append, tokenText_data]
    left; right
    exact List.mem_cons_self _ _
  have hstR : Route.isStaticB
      (⟨pre ++ tokenText kind nm ++ suf, h, ms, e⟩ : Route α) = false :=
    isStaticB_false hltTok
  have hsegsR : Route.segs (⟨pre ++ tokenText kind nm ++ suf, h, ms, e⟩ : Route α)
      = [Seg.lit pre, Seg.param kind nm, Seg.lit suf] := hsegs
  have hpn : Route.paramNames
      (⟨pre ++ tokenText kind nm ++ suf, h, ms, e⟩ : Route α) = [nm] := by
    rw [Route.paramNames, hsegsR]
    rfl
  have hfind : dictFind
      [(e, (⟨pre ++ tokenText kind nm ++ suf, h, ms, e⟩ : Route α))] e
      = some (⟨pre ++ tokenText kind nm ++ suf, h, ms, e⟩ : Route α) := by
    rw [dictFind, if_pos rfl]
  have hfind2 : dictFind [(nm, v)] nm = some v := by
    rw [dictFind, if_pos rfl]
  have hsubst : substParam nm (pyStr v) (pre ++ tokenText kind nm ++ suf).data
      = pre.data ++ (pyStr v).data ++ suf.data := by
    rw [substParam, hfindk]
    show replaceAll (pre ++ tokenText kind nm ++ suf).data
      (tokenText kind nm).data (pyStr v).data
      = pre.data ++ (pyStr v).data ++ suf.data
    rw [String.data_append, String.data_append, tokenText_data]
    exact replaceAll_once hpreLt hsufLt
  constructor
  · rw [urlFor, hfind]
    show (if Route.isStaticB
        (⟨pre ++ tokenText kind nm ++ suf, h, ms, e⟩ : Route α) then _ else _) = _
    rw [hstR]
    show (urlForAux [(nm, v)] e
        (Route.paramNames (⟨pre ++ tokenText kind nm ++ suf, h, ms, e⟩ : Route α))
        (pre ++ tokenText kind nm ++ suf).data).map String.mk
      = Except.ok (pre ++ pyStr v ++ suf)
    rw [hpn, urlForAux, hfind2]
    show (urlForAux [(nm, v)] e []
        (substParam nm (pyStr v) (pre ++ tokenText kind nm ++ suf).data)).map
        String.mk = Except.ok (pre ++ pyStr v ++ suf)
    rw [hsubst, urlForAux]
    show Except.ok (String.mk (pre.data ++ (pyStr v).data ++ suf.data))
      = Except.ok (pre ++ pyStr v ++ suf)
    exact congrArg Except.ok (string_eq_of_data
      (by rw [data_mk, String.data_append, String.data_append]))
  · apply (resolve_single_dynamic_ok_iff _ _ (pre ++ pyStr v ++ suf) m hm _).mpr
    refine ⟨[(nm, pvalOf v)], ?_, rfl⟩
    have hwin := matchPath_lit_param_lit_wins
      (⟨pre ++ tokenText kind nm ++ suf, h, ms, e⟩ : Route α) pre suf kind nm
      hpre hsuf hsegsR hstR hacc (pre ++ pyStr v ++ suf)
      (by rw [String.data_append, String.data_append])
    rw [mk_data, hconv] at hwin
    exact hwin

/-! ## The claims -/

/-- C1: for every entry of the static route table with path p, handler h and
method list M, and every method m, Router.resolve p m returns the pair of h
and the empty parameter dict when m is in M, and raises MethodNotAllowed
(never NotFound) when m is not in M; the statement holds for a Router with
arbitrary dynamic routes, so the static exact match is decided before any
dynamic route is consulted, regardless of registration order. -/
theorem claim_C1_static_precedence {α : Type} (r : Router α) (p m : String)
    (rt : Route α) (hfind : dictFind r.static_routes p = some rt) :
    (rt.methods.contains m = true → resolve r p m = Except.ok (rt.handler, [])) ∧
    (rt.methods.contains m = false →
      resolve r p m = Except.error ResolveErr.methodNotAllowed) := by
  constructor
  · intro hm
    rw [resolve_static_found m hfind, if_pos hm]
  · intro hm
    rw [resolve_static_found m hfind,
      if_neg (by intro hc; rw [hm] at hc; exact Bool.false_ne_true hc)]

/-- Witness for C1 on a concrete router that also owns a dynamic route
matching the same path and accepting both methods: the static route still
decides both outcomes. -/
theorem claim_C1_witness :
    resolve
      (⟨[("/x", ⟨"/x", 1, ["GET"], "x"⟩)],
        [⟨"/<str:w>", 9, ["GET", "POST"], "w"⟩],
        [("x", ⟨"/x", 1, ["GET"], "x"⟩), ("w", ⟨"/<str:w>", 9, ["GET", "POST"], "w"⟩)]⟩
        : Router Nat) "/x" "GET" = Except.ok (1, []) ∧
    resolve
      (⟨[("/x", ⟨"/x", 1, ["GET"], "x"⟩)],
        [⟨"/<str:w>", 9, ["GET", "POST"], "w"⟩],
        [("x", ⟨"/x", 1, ["GET"], "x"⟩), ("w", ⟨"/<str:w>", 9, ["GET", "POST"], "w"⟩)]⟩
        : Router Nat) "/x" "POST" = Except.error ResolveErr.methodNotAllowed := by
  constructor
  · exact (claim_C1_static_precedence
      ⟨[("/x", ⟨"/x", 1, ["GET"], "x"⟩)], [⟨"/<str:w>", 9, ["GET", "POST"], "w"⟩],
        [("x", ⟨"/x", 1, ["GET"], "x"⟩), ("w", ⟨"/<str:w>", 9, ["GET", "POST"], "w"⟩)]⟩
      "/x" "GET" ⟨"/x", 1, ["GET"], "x"⟩ (by decide)).1 (by decide)
  · exact (claim_C1_static_precedence
      ⟨[("/x", ⟨"/x", 1, ["GET"], "x"⟩)], [⟨"/<str:w>", 9, ["GET", "POST"], "w"⟩],
        [("x", ⟨"/x", 1, ["GET"], "x"⟩), ("w", ⟨"/<str:w>", 9, ["GET", "POST"], "w"⟩)]⟩
      "/x" "POST" ⟨"/x", 1, ["GET"], "x"⟩ (by decide)).2 (by decide)

/-- C2: when the path is not a static key and two dynamic routes r1 and r2,
registered in that order, both accept the method and both match the path, the
resolver returns the handler and params of the first-registered r1 — dynamic
routes are scanned in registration order and the first success wins, so no
route registered before r1 preempts it unless it matches. -/
theorem claim_C2_first_registered_wins {α : Type} (r : Router α)
    (path m : String) (l1 l2 l3 : List (Route α)) (r1 r2 : Route α)
    (ps1 ps2 : List (String × PValue))
    (hstatic : dictFind r.static_routes path = none)
    (hdyn : r.dynamic_routes = l1 ++ r1 :: (l2 ++ r2 :: l3))
    (hskip : ∀ rt ∈ l1, rt.methods.contains m = true → rt.matchPath path = none)
    (hm1 : r1.methods.contains m = true) (hmatch1 : r1.matchPath path = some ps1)
    (hm2 : r2.methods.contains m = true) (hmatch2 : r2.matchPath path = some ps2) :
    resolve r path m = Except.ok (r1.handler, ps1) := by
  rw [resolve_static_none m hstatic, hdyn, resolveDynamic_skip l1 _ path m hskip,
    resolveDynamic_cons_match hm1 hmatch1]

/-- Witness for C2: two overlapping dynamic routes, the first-registered one's
handler and params come back. -/
theorem claim_C2_witness :
    resolve
      (⟨[],
        [⟨"/u/<int:id>", 1, ["GET"], "a"⟩, ⟨"/u/<str:s>", 2, ["GET"], "b"⟩],
        [("a", ⟨"/u/<int:id>", 1, ["GET"], "a"⟩),
         ("b", ⟨"/u/<str:s>", 2, ["GET"], "b"⟩)]⟩ : Router Nat) "/u/7" "GET"
      = Except.ok (1, [("id", PValue.int 7)]) := by
  exact claim_C2_first_registered_wins _ "/u/7" "GET" [] [] []
    ⟨"/u/<int:id>", 1, ["GET"], "a"⟩ ⟨"/u/<str:s>", 2, ["GET"], "b"⟩
    [("id", PValue.int 7)] [("s", PValue.str "7")]
    rfl rfl (by intro rt h; exact absurd h (by simp)) rfl (by decide) rfl (by decide)

/-- C6 (code bug): the terminal dispatch stage calls Router.resolve with no
exception handling, so a NotFound or MethodNotAllowed raised by resolution
escapes the stage instead of being turned into a 404 or 405 response — the
literal 404 branch of _wsgi_app_handler is unreachable because resolve raises
rather than returning a falsy handler.  Evaluated at the failing inputs: an
unrouted path and a method-mismatched static path. -/
theorem claim_C6_resolution_failure_escapes :
    wsgiAppHandler (emptyRouter : Router Nat) "/missing" "GET"
        (fun _ _ => ⟨"200 OK"⟩) = Except.error ResolveErr.notFound ∧
    wsgiAppHandler
        (⟨[("/", ⟨"/", 1, ["GET"], "home"⟩)], [],
          [("home", ⟨"/", 1, ["GET"], "home"⟩)]⟩ : Router Nat)
        "/" "POST" (fun _ _ => ⟨"200 OK"⟩)
      = Except.error ResolveErr.methodNotAllowed := by
  exact ⟨rfl, rfl⟩

/-- C7 (code bug): the CSRF stage compares only the form-field token against
the cookie token and never consults the request headers, so a POST carrying
the matching token in a header (as the repository's own CSRF test expects to
succeed) is rejected with the 403 short-circuit, while the form-field
transport is accepted. -/
theorem claim_C7_header_token_ignored :
    csrfAllows "POST" [] [("csrf_token", "tok")] [("X-Csrf-Token", "tok")] = false ∧
    csrfAllows "POST" [("csrf_token", "tok")] [("csrf_token", "tok")] [] = true := by
  constructor
  · decide
  · decide

/-- C8: add_route checks the endpoint index before touching any table, so a
duplicate endpoint name raises the ValueError carrying the endpoint name and
returns the router exactly as it was: static_routes, dynamic_routes and
endpoints unchanged. -/
theorem claim_C8_duplicate_endpoint_atomic {α : Type} (r : Router α)
    (path : String) (handler : α) (ms : List String) (e : String)
    (hdup : (dictFind r.endpoints e).isSome = true) :
    addRoute r path handler ms e
      = (r, some ("Endpoint \"" ++ e ++ "\" is already registered.")) := by
  rw [addRoute, if_pos hdup]

/-- Witness for C8 at a concrete router that already owns the endpoint. -/
theorem claim_C8_witness :
    addRoute (⟨[("/x", ⟨"/x", 1, ["GET"], "a"⟩)], [],
        [("a", ⟨"/x", 1, ["GET"], "a"⟩)]⟩ : Router Nat) "/y" 2 ["GET"] "a"
      = ((⟨[("/x", ⟨"/x", 1, ["GET"], "a"⟩)], [],
          [("a", ⟨"/x", 1, ["GET"], "a"⟩)]⟩ : Router Nat),
         some "Endpoint \"a\" is already registered.") := by
  exact claim_C8_duplicate_endpoint_atomic _ "/y" 2 ["GET"] "a" (by decide)

/-- C10 counterexample: a request that carries the csrf_token cookie with the
empty string as value is regenerated anyway — the code's falsiness test
treats the carried cookie as absent and a fresh token cookie is set on the
response, contradicting the claim that no token is generated for requests
already carrying the cookie. -/
theorem claim_C10_counterexample :
    dictFind [("csrf_token", "")] "csrf_token" = some "" ∧
    csrfTokenSetup [("csrf_token", "")] "fresh" = ("fresh", true) ∧
    responseCsrfCookies [("csrf_token", "")] "fresh"
      = [⟨"csrf_token", "fresh", false, "Lax"⟩] := by
  exact ⟨rfl, rfl, rfl⟩

/-- C10 as amended: for requests without a csrf_token cookie the fresh token
is adopted, the new-token flag is set, and a normal response gets exactly one
csrf_token cookie with httponly False and samesite Lax carrying it; for
requests with a non-empty csrf_token cookie no token is generated and no such
cookie is added. -/
theorem claim_C10_amended (cookies : List (String × String)) (fresh : String) :
    (dictFind cookies "csrf_token" = none →
      csrfTokenSetup cookies fresh = (fresh, true) ∧
      responseCsrfCookies cookies fresh
        = [⟨"csrf_token", fresh, false, "Lax"⟩]) ∧
    (∀ t, dictFind cookies "csrf_token" = some t → t ≠ "" →
      csrfTokenSetup cookies fresh = (t, false) ∧
      responseCsrfCookies cookies fresh = []) := by
  constructor
  · intro h
    constructor
    · simp [csrfTokenSetup, h]
    · simp [responseCsrfCookies, csrfTokenSetup, h]
  · intro t h ht
    constructor
    · simp [csrfTokenSetup, h, ht]
    · simp [responseCsrfCookies, csrfTokenSetup, h, ht]

/-- Witness for the amended C10 at a concrete cookie jar in both regimes. -/
theorem claim_C10_witness :
    (csrfTokenSetup [("sid", "1")] "f" = ("f", true) ∧
      responseCsrfCookies [("sid", "1")] "f" = [⟨"csrf_token", "f", false, "Lax"⟩]) ∧
    (csrfTokenSetup [("csrf_token", "t0")] "f" = ("t0", false) ∧
      responseCsrfCookies [("csrf_token", "t0")] "f" = []) := by
  constructor
  · exact (claim_C10_amended [("sid", "1")] "f").1 rfl
  · exact (claim_C10_amended [("csrf_token", "t0")] "f").2 "t0" rfl (by decide)

/-- C4 counterexample, refuting both halves of the claim.  Verbatim half:
literal pattern text is inserted into the compiled regex unescaped, so a dot
in the pattern is the any-character metacharacter rather than a verbatim
character, and the dotted route matches a path whose corresponding portion
differs from the literal portion.  Anchoring half: the compiled end anchor
also matches just before a trailing newline, so extending a matching path
with a newline still matches. -/
theorem claim_C4_counterexample :
    Route.matchPath (⟨"/a.b/<int:id>", 0, ["GET"], "e"⟩ : Route Nat) "/aXb/1"
      = some [("id", PValue.int 1)] ∧
    Route.segs (⟨"/a.b/<int:id>", 0, ["GET"], "e"⟩ : Route Nat)
      = [Seg.lit "/a.b/", Seg.param "int" "id"] ∧
    "/aXb/1".data = "/aXb/".data ++ "1".data ∧
    "/aXb/" ≠ "/a.b/" ∧
    Route.matchPath (⟨"/users/<int:id>", 0, ["GET"], "e"⟩ : Route Nat) "/users/42"
      = some [("id", PValue.int 42)] ∧
    Route.matchPath (⟨"/users/<int:id>", 0, ["GET"], "e"⟩ : Route Nat)
      ("/users/42" ++ "\n") = some [("id", PValue.int 42)] := by
  refine ⟨by decide, by decide, by decide, by decide, by decide, by decide⟩

/-- C4 as amended: a successful dynamic match decomposes the whole path, with
nothing before and nothing after beyond at most the one trailing newline the
compiled end anchor tolerates, into the pattern's literal chunks and the
parameter captures in pattern order — and, for patterns whose literal text is
free of regex metacharacters, the literal chunks are matched verbatim: the
path equals the rebuild of the chunks and captures character-for-character,
or that rebuild followed by a single newline. -/
theorem claim_C4_amended {α : Type} (rt : Route α) (path : String)
    (ps : List (String × PValue))
    (hdyn : rt.isStaticB = false) (hmf : segsMetaFree rt.segs = true)
    (hmatch : rt.matchPath path = some ps) :
    ∃ raw, matchSegs rt.segs path.data = some raw ∧
      (path.data = rebuild rt.segs raw ∨
        path.data = rebuild rt.segs raw ++ ['\n']) ∧
      ps = raw.map (fun pr =>
        (pr.1, applyConverter (kindOfName rt.segs pr.1) pr.2)) := by
  rw [matchPath_dynamic hdyn] at hmatch
  obtain ⟨raw, hraw, hconv⟩ := Option.map_eq_some'.mp hmatch
  exact ⟨raw, hraw, matchSegs_rebuild hmf hraw, hconv.symm⟩

/-- Witness for the amended C4 at a concrete metacharacter-free route. -/
theorem claim_C4_witness :
    ∃ raw,
      matchSegs (Route.segs (⟨"/users/<int:id>", 0, ["GET"], "e"⟩ : Route Nat))
        "/users/42".data = some raw ∧
      ("/users/42".data
          = rebuild (Route.segs (⟨"/users/<int:id>", 0, ["GET"], "e"⟩ : Route Nat))
            raw ∨
        "/users/42".data
          = rebuild (Route.segs (⟨"/users/<int:id>", 0, ["GET"], "e"⟩ : Route Nat))
            raw ++ ['\n']) ∧
      [("id", PValue.int 42)] = raw.map (fun pr =>
        (pr.1, applyConverter
          (kindOfName (Route.segs (⟨"/users/<int:id>", 0, ["GET"], "e"⟩ : Route Nat))
            pr.1) pr.2)) := by
  exact claim_C4_amended (⟨"/users/<int:id>", 0, ["GET"], "e"⟩ : Route Nat)
    "/users/42" [("id", PValue.int 42)] (by decide) (by decide) (by decide)

/-- C9 counterexample: two successful add_route calls with the same static
path but different endpoints leave the first Route reachable from the
endpoint index while the static dict entry has been overwritten by the
second, so the first registered Route appears in neither route table —
falsifying the invariant that every registered Route appears in exactly one
of static_routes and dynamic_routes. -/
theorem claim_C9_counterexample :
    ∃ router : Router Nat,
      registerAll (emptyRouter : Router Nat)
          [("/x", 1, ["GET"], "a"), ("/x", 2, ["GET"], "b")] = some router ∧
      (⟨"/x", 1, ["GET"], "a"⟩ : Route Nat) ∈ router.endpoints.map Prod.snd ∧
      (router.static_routes.map Prod.snd ++ router.dynamic_routes).count
        (⟨"/x", 1, ["GET"], "a"⟩ : Route Nat) = 0 := by
  refine ⟨_, rfl, by decide, by decide⟩

/-- C9 as amended: after every sequence of successful add_route calls from an
empty router in which the static-classified patterns are pairwise distinct,
every registered Route (an entry of the endpoint index) appears exactly once
in the concatenation of the static table's routes and the dynamic list, and
exactly once in the endpoint index. -/
theorem claim_C9_amended {α : Type} [DecidableEq α]
    (regs : List (String × α × List String × String)) (router : Router α)
    (hreg : registerAll (emptyRouter : Router α) regs = some router)
    (hdistinct : (staticPaths regs).Nodup) :
    ∀ rt ∈ router.endpoints.map Prod.snd,
      (router.static_routes.map Prod.snd ++ router.dynamic_routes).count rt = 1 ∧
      (router.endpoints.map Prod.snd).count rt = 1 := by
  have hinv : routerInv router :=
    registerAll_inv regs emptyRouter router hreg routerInv_empty hdistinct
      (fun q _ _ => rfl)
  obtain ⟨hnd, hown, hperm⟩ := hinv
  intro rt hrt
  have hvalsnd : (router.endpoints.map Prod.snd).Nodup := by
    have hmapeq : (router.endpoints.map Prod.snd).map Route.endpoint
        = router.endpoints.map Prod.fst := by
      rw [List.map_map]
      exact List.map_congr_left (fun pr hpr => hown pr hpr)
    apply List.Nodup.of_map Route.endpoint
    rw [hmapeq]
    exact hnd
  have hcnt : (router.endpoints.map Prod.snd).count rt = 1 :=
    List.count_eq_one_of_mem hvalsnd hrt
  exact ⟨by rw [hperm.count_eq]; exact hcnt, hcnt⟩

/-- Witness for the amended C9: one static and one dynamic registration with
distinct paths; the static Route appears once in the tables and once in the
endpoint index. -/
theorem claim_C9_witness :
    ∃ router : Router Nat,
      registerAll (emptyRouter : Router Nat)
          [("/a", 1, ["GET"], "a"), ("/u/<int:id>", 2, ["GET"], "u")] = some router ∧
      (router.static_routes.map Prod.snd ++ router.dynamic_routes).count
        (⟨"/a", 1, ["GET"], "a"⟩ : Route Nat) = 1 ∧
      (router.endpoints.map Prod.snd).count (⟨"/a", 1, ["GET"], "a"⟩ : Route Nat) = 1 := by
  refine ⟨_, rfl, ?_⟩
  exact claim_C9_amended
    [("/a", 1, ["GET"], "a"), ("/u/<int:id>", 2, ["GET"], "u")] _ rfl (by decide)
    (⟨"/a", 1, ["GET"], "a"⟩ : Route Nat) (by decide)

/-- C3 counterexample: the compiled end anchor also matches just before a
trailing newline, so the int route resolves a path whose parameter segment is
not an optionally-signed all-digit string — the segment carries a trailing
newline that _int_converter rejects — binding the integer parsed from the
digits in front of it, and it does not fall through to the str route
registered after it.  This refutes both the exactness half and the
fall-through half of the claim at this input. -/
theorem claim_C3_counterexample :
    resolve (⟨[], [⟨"/users/<int:id>", (1 : Nat), ["GET"], "u"⟩,
          ⟨"/users/<str:name>", 2, ["GET"], "n"⟩],
        [("u", ⟨"/users/<int:id>", 1, ["GET"], "u"⟩),
         ("n", ⟨"/users/<str:name>", 2, ["GET"], "n"⟩)]⟩ : Router Nat)
      ("/users/" ++ "42\n") "GET" = Except.ok (1, [("id", PValue.int 42)]) ∧
    intConverter "42\n" = none := by
  exact ⟨rfl, rfl⟩

/-- C3 as amended: for a dynamic route of metacharacter-free literal text
followed by an int parameter token, resolution succeeds exactly when the rest
of the path, after allowing the single trailing newline the compiled end
anchor tolerates, is a string the int converter accepts (an optionally
minus-signed nonempty string of decimal digits), binding the parameter to the
integer parsed from that string — and a newline-free remainder the converter
rejects makes the int route fall through with no error raised, so resolution
continues with the next candidate route in registration order (here a str
route of the same shape). -/
theorem claim_C3_amended {α : Type} (h1 h2 : α) (pre nm nm2 : String)
    (ms ms2 : List String) (m e1 e2 : String)
    (hpre : metaFree pre.data = true)
    (hsegs1 : scanSegs (pre ++ "<int:" ++ nm ++ ">").data
      = [Seg.lit pre, Seg.param "int" nm])
    (hsegs2 : scanSegs (pre ++ "<str:" ++ nm2 ++ ">").data
      = [Seg.lit pre, Seg.param "str" nm2])
    (hm : ms.contains m = true) (hm2 : ms2.contains m = true) :
    (∀ (s t : String) (k : Int), intConverter s = some k →
      (t = s ∨ t = s ++ "\n") →
      resolve (⟨[], [⟨pre ++ "<int:" ++ nm ++ ">", h1, ms, e1⟩],
          [(e1, ⟨pre ++ "<int:" ++ nm ++ ">", h1, ms, e1⟩)]⟩ : Router α)
        (pre ++ t) m = Except.ok (h1, [(nm, PValue.int k)])) ∧
    (∀ (path : String) (res : α × List (String × PValue)),
      resolve (⟨[], [⟨pre ++ "<int:" ++ nm ++ ">", h1, ms, e1⟩],
          [(e1, ⟨pre ++ "<int:" ++ nm ++ ">", h1, ms, e1⟩)]⟩ : Router α) path m
        = Except.ok res →
      ∃ (s : String) (k : Int), (path = pre ++ s ∨ path = pre ++ s ++ "\n") ∧
        intConverter s = some k ∧ res = (h1, [(nm, PValue.int k)])) ∧
    (∀ s : String, intConverter s = none → s.data ≠ [] →
      s.data.all notSlash = true → s.data.all dotChar = true →
      resolve (⟨[], [⟨pre ++ "<int:" ++ nm ++ ">", h1, ms, e1⟩,
            ⟨pre ++ "<str:" ++ nm2 ++ ">", h2, ms2, e2⟩],
          [(e1, ⟨pre ++ "<int:" ++ nm ++ ">", h1, ms, e1⟩),
           (e2, ⟨pre ++ "<str:" ++ nm2 ++ ">", h2, ms2, e2⟩)]⟩ : Router α)
        (pre ++ s) m = Except.ok (h2, [(nm2, PValue.str s)])) := by
  have hltint : '<' ∈ ((pre ++ "<int:" ++ nm ++ ">")).data := by
    simp only [String.data_append, List.mem_append]
    left; left; right
    decide
  have hltstr : '<' ∈ ((pre ++ "<str:" ++ nm2 ++ ">")).data := by
    simp only [String.data_append, List.mem_append]
    left; left; right
    decide
  have hst1 : Route.isStaticB
      (⟨pre ++ "<int:" ++ nm ++ ">", h1, ms, e1⟩ : Route α) = false :=
    isStaticB_false hltint
  have hst2 : Route.isStaticB
      (⟨pre ++ "<str:" ++ nm2 ++ ">", h2, ms2, e2⟩ : Route α) = false :=
    isStaticB_false hltstr
  have hsg1 : Route.segs (⟨pre ++ "<int:" ++ nm ++ ">", h1, ms, e1⟩ : Route α)
      = [Seg.lit pre, Seg.param "int" nm] := hsegs1
  have hsg2 : Route.segs (⟨pre ++ "<str:" ++ nm2 ++ ">", h2, ms2, e2⟩ : Route α)
      = [Seg.lit pre, Seg.param "str" nm2] := hsegs2
  refine ⟨?_, ?_, ?_⟩
  · intro s t k hk ht
    have hshape : intShape s.data = true := intShape_of_converter hk
    have hacc : kindAccepts "int" s.data = true := by
      rw [kindAccepts_int]
      exact hshape
    have hmatch : Route.matchPath
        (⟨pre ++ "<int:" ++ nm ++ ">", h1, ms, e1⟩ : Route α) (pre ++ t)
        = some [(nm, PValue.int k)] := by
      rcases ht with ht1 | ht1
      · rw [ht1]
        have hw := matchPath_lit_param_wins _ pre "int" nm hpre hsg1 hst1 hacc
          (pre ++ s) (by rw [String.data_append])
        rw [mk_data, applyConverter_int hk] at hw
        exact hw
      · rw [ht1]
        have hw := matchPath_lit_param_int_nl _ pre nm hpre hsg1 hst1 hshape
          (pre ++ (s ++ "\n"))
          (by rw [String.data_append, String.data_append])
        rw [mk_data, applyConverter_int hk] at hw
        exact hw
    exact (resolve_single_dynamic_ok_iff _ _ (pre ++ t) m hm _).mpr
      ⟨_, hmatch, rfl⟩
  · intro path res hres
    obtain ⟨ps, hmatch, hres2⟩ :=
      (resolve_single_dynamic_ok_iff _ _ path m hm res).mp hres
    obtain ⟨v, hor, hacc, hps⟩ :=
      matchPath_lit_param_sound _ pre "int" nm hpre hsg1 hst1 path ps hmatch
    have hshape : intShape v = true := by
      rw [← kindAccepts_int]
      exact hacc
    obtain ⟨k, hk⟩ := converter_of_intShape hshape
    refine ⟨String.mk v, k, ?_, hk, ?_⟩
    · rcases hor with hcase | hcase
      · left
        apply string_eq_of_data
        rw [String.data_append, data_mk]
        exact hcase
      · right
        apply string_eq_of_data
        rw [String.data_append, String.data_append, data_mk]
        exact hcase
    · rw [hres2, hps, applyConverter_int hk]
  · intro s hnone hne hslash hdot
    have hmatch1 : Route.matchPath
        (⟨pre ++ "<int:" ++ nm ++ ">", h1, ms, e1⟩ : Route α) (pre ++ s)
        = none := by
      cases hx : Route.matchPath
          (⟨pre ++ "<int:" ++ nm ++ ">", h1, ms, e1⟩ : Route α) (pre ++ s) with
      | none => rfl
      | some ps =>
        obtain ⟨v, hor, hacc, _⟩ :=
          matchPath_lit_param_sound _ pre "int" nm hpre hsg1 hst1 _ ps hx
        have hshape : intShape v = true := by
          rw [← kindAccepts_int]
          exact hacc
        rcases hor with hcase | hcase
        · have hsv : s.data = v := by
            have hcat : pre.data ++ s.data = pre.data ++ v := by
              rw [← String.data_append]
              exact hcase
            exact List.append_cancel_left hcat
          obtain ⟨k, hk⟩ := converter_of_intShape hshape
          rw [← hsv, mk_data, hnone] at hk
          exact absurd hk (by simp)
        · have hsv : s.data = v ++ ['\n'] := by
            have hcat : pre.data ++ s.data = pre.data ++ (v ++ ['\n']) := by
              rw [← String.data_append, hcase, List.append_assoc]
            exact List.append_cancel_left hcat
          have hmem : '\n' ∈ s.data := by
            rw [hsv]
            simp
          have hd : dotChar '\n' = true := by
            rw [List.all_eq_true] at hdot
            exact hdot '\n' hmem
          simp [dotChar] at hd
    have hmatch2 : Route.matchPath
        (⟨pre ++ "<str:" ++ nm2 ++ ">", h2, ms2, e2⟩ : Route α) (pre ++ s)
        = some [(nm2, PValue.str s)] := by
      have hacc : kindAccepts "str" s.data = true := by
        rw [kindAccepts_other (by decide) (by decide)]
        simp [List.isEmpty_iff, hne, hslash]
      have hw := matchPath_lit_param_wins _ pre "str" nm2 hpre hsg2 hst2 hacc
        (pre ++ s) (by rw [String.data_append])
      rw [mk_data, applyConverter_not_int (by decide)] at hw
      exact hw
    rw [resolve_static_none m
      (show dictFind (Router.static_routes
        (⟨[], [⟨pre ++ "<int:" ++ nm ++ ">", h1, ms, e1⟩,
            ⟨pre ++ "<str:" ++ nm2 ++ ">", h2, ms2, e2⟩],
          [(e1, ⟨pre ++ "<int:" ++ nm ++ ">", h1, ms, e1⟩),
           (e2, ⟨pre ++ "<str:" ++ nm2 ++ ">", h2, ms2, e2⟩)]⟩ : Router α))
        (pre ++ s) = none from rfl)]
    show resolveDynamic
      [⟨pre ++ "<int:" ++ nm ++ ">", h1, ms, e1⟩,
        ⟨pre ++ "<str:" ++ nm2 ++ ">", h2, ms2, e2⟩] (pre ++ s) m
      = Except.ok (h2, [(nm2, PValue.str s)])
    rw [resolveDynamic_cons_skip (fun _ => hmatch1)]
    exact resolveDynamic_cons_match hm2 hmatch2

/-- Witness for the amended C3: the canonical int route accepts a signed
decimal with the trailing newline the end anchor tolerates and binds the
integer; a newline-free non-digit segment falls through to the later str
route. -/
theorem claim_C3_witness :
    resolve (⟨[], [⟨"/users/" ++ "<int:" ++ "id" ++ ">", (1 : Nat), ["GET"], "u"⟩],
        [("u", ⟨"/users/" ++ "<int:" ++ "id" ++ ">", 1, ["GET"], "u"⟩)]⟩ : Router Nat)
      ("/users/" ++ ("-42" ++ "\n")) "GET"
      = Except.ok (1, [("id", PValue.int (-42))]) ∧
    resolve (⟨[], [⟨"/users/" ++ "<int:" ++ "id" ++ ">", (1 : Nat), ["GET"], "u"⟩,
          ⟨"/users/" ++ "<str:" ++ "name" ++ ">", 2, ["GET"], "n"⟩],
        [("u", ⟨"/users/" ++ "<int:" ++ "id" ++ ">", 1, ["GET"], "u"⟩),
         ("n", ⟨"/users/" ++ "<str:" ++ "name" ++ ">", 2, ["GET"], "n"⟩)]⟩ : Router Nat)
      ("/users/" ++ "abc") "GET" = Except.ok (2, [("name", PValue.str "abc")]) := by
  have H := claim_C3_amended (1 : Nat) 2 "/users/" "id" "name" ["GET"] ["GET"]
    "GET" "u" "n" (by decide) (by decide) (by decide) (by decide) (by decide)
  exact ⟨H.1 "-42" ("-42" ++ "\n") (-42) (by decide) (Or.inr rfl),
    H.2.2 "abc" (by decide) (by decide) (by decide) (by decide)⟩

/-- C5 counterexample: a registered dynamic route spelled with an unknown
converter kind (which matching treats as str) is never substituted by
url_for — its probe loop only knows the three built-in kinds — so url_for
returns the pattern text itself and resolve parses the token text back as the
parameter value: the round trip loses the supplied value "abc" even though it
is of the correct (str fallback) converter kind. -/
theorem claim_C5_counterexample :
    urlFor (⟨[], [⟨"/u/<uuid:x>", (7 : Nat), ["GET"], "e"⟩],
        [("e", ⟨"/u/<uuid:x>", 7, ["GET"], "e"⟩)]⟩ : Router Nat) "e"
      [("x", PyVal.str "abc")] = Except.ok "/u/<uuid:x>" ∧
    resolve (⟨[], [⟨"/u/<uuid:x>", (7 : Nat), ["GET"], "e"⟩],
        [("e", ⟨"/u/<uuid:x>", 7, ["GET"], "e"⟩)]⟩ : Router Nat) "/u/<uuid:x>" "GET"
      = Except.ok (7, [("x", PValue.str "<uuid:x>")]) ∧
    PValue.str "<uuid:x>" ≠ PValue.str "abc" := by
  exact ⟨rfl, rfl, by decide⟩

/-- C5 as amended: url_for round-trips with resolve for dynamic routes built
from metacharacter-free literal text around a single parameter token of a
known kind (str, int or path), for parameter values of the correct converter
kind — an integer for int, a string the kind's capture class accepts for str
and path — with no stray opening angle bracket in the literals or the
parameter name: resolve applied to the generated URL returns the registered
handler and binds the parameter to the supplied value, for any allowed
method. -/
theorem claim_C5_amended {α : Type} (h : α) (pre suf kind nm : String)
    (ms : List String) (m e : String) (v : PyVal)
    (hkind3 : kind = "str" ∨ kind = "int" ∨ kind = "path")
    (hpre : metaFree pre.data = true) (hsuf : metaFree suf.data = true)
    (hpreLt : ∀ c ∈ pre.data, c ≠ '<') (hsufLt : ∀ c ∈ suf.data, c ≠ '<')
    (hnmLt : ∀ c ∈ nm.data, c ≠ '<')
    (hsegs : scanSegs (pre ++ tokenText kind nm ++ suf).data
      = [Seg.lit pre, Seg.param kind nm, Seg.lit suf])
    (hm : ms.contains m = true)
    (hv : (kind = "int" → ∃ n, v = PyVal.int n) ∧
      (kind ≠ "int" → ∃ s, v = PyVal.str s ∧ kindAccepts kind s.data = true)) :
    urlFor (⟨[], [⟨pre ++ tokenText kind nm ++ suf, h, ms, e⟩],
        [(e, ⟨pre ++ tokenText kind nm ++ suf, h, ms, e⟩)]⟩ : Router α) e [(nm, v)]
      = Except.ok (pre ++ pyStr v ++ suf) ∧
    resolve (⟨[], [⟨pre ++ tokenText kind nm ++ suf, h, ms, e⟩],
        [(e, ⟨pre ++ tokenText kind nm ++ suf, h, ms, e⟩)]⟩ : Router α)
      (pre ++ pyStr v ++ suf) m = Except.ok (h, [(nm, pvalOf v)]) := by
  have hval : kindAccepts kind (pyStr v).data = true ∧
      applyConverter kind (pyStr v) = pvalOf v := by
    by_cases hki : kind = "int"
    · obtain ⟨n, rfl⟩ := hv.1 hki
      subst hki
      constructor
      · rw [kindAccepts_int]
        exact intShape_pyStr n
      · exact applyConverter_int (intConverter_pyStr n)
    · obtain ⟨s, rfl, hacc⟩ := hv.2 hki
      exact ⟨hacc, applyConverter_not_int hki _⟩
  have hkdLt : ∀ c ∈ kind.data, c ≠ '<' := by
    rcases hkind3 with rfl | rfl | rfl <;> decide
  have hpathD : (pre ++ tokenText kind nm ++ suf).data
      = pre.data ++ ('<' :: (kind.data ++ ':' :: (nm.data ++ ['>']))) ++ suf.data := by
    rw [String.data_append, String.data_append, tokenText_data]
  have hcont : ∀ k' : String,
      containsSub (pre ++ tokenText kind nm ++ suf).data (tokenText k' nm).data
        = isPrefixOfChars (k'.data ++ ':' :: (nm.data ++ ['>']))
            ((kind.data ++ ':' :: (nm.data ++ ['>'])) ++ suf.data) := by
    intro k'
    rw [hpathD, tokenText_data]
    exact containsSub_token_in_path hpreLt (tokTail_lt_free hkdLt hnmLt) hsufLt
  have hfindk : typeKeys.find? (fun k =>
      containsSub (pre ++ tokenText kind nm ++ suf).data (tokenText k nm).data)
      = some kind := by
    rcases hkind3 with rfl | rfl | rfl
    · rw [typeKeys]
      apply List.find?_cons_of_pos
      show containsSub (pre ++ tokenText "str" nm ++ suf).data
        (tokenText "str" nm).data = true
      rw [hcont "str"]
      exact isPrefixOfChars_token_self _ _ _
    · have hstr : containsSub (pre ++ tokenText "int" nm ++ suf).data
          (tokenText "str" nm).data = false := by
        rw [hcont "str"]
        exact isPrefixOfChars_append_ne (by decide) _ _
      have hint : containsSub (pre ++ tokenText "int" nm ++ suf).data
          (tokenText "int" nm).data = true := by
        rw [hcont "int"]
        exact isPrefixOfChars_token_self _ _ _
      rw [typeKeys, List.find?_cons_of_neg _ (by
          intro hc
          have hc' : containsSub (pre ++ tokenText "int" nm ++ suf).data
              (tokenText "str" nm).data = true := hc
          rw [hstr] at hc'
          exact Bool.false_ne_true hc')]
      apply List.find?_cons_of_pos
      show containsSub (pre ++ tokenText "int" nm ++ suf).data
        (tokenText "int" nm).data = true
      exact hint
    · have hstr : containsSub (pre ++ tokenText "path" nm ++ suf).data
          (tokenText "str" nm).data = false := by
        rw [hcont "str"]
        exact isPrefixOfChars_append_ne (by decide) _ _
      have hint : containsSub (pre ++ tokenText "path" nm ++ suf).data
          (tokenText "int" nm).data = false := by
        rw [hcont "int"]
        exact isPrefixOfChars_append_ne (by decide) _ _
      have hpathk : containsSub (pre ++ tokenText "path" nm ++ suf).data
          (tokenText "path" nm).data = true := by
        rw [hcont "path"]
        exact isPrefixOfChars_token_self _ _ _
      rw [typeKeys, List.find?_cons_of_neg _ (by
          intro hc
          have hc' : containsSub (pre ++ tokenText "path" nm ++ suf).data
              (tokenText "str" nm).data = true := hc
          rw [hstr] at hc'
          exact Bool.false_ne_true hc'),
        List.find?_cons_of_neg _ (by
          intro hc
          have hc' : containsSub (pre ++ tokenText "path" nm ++ suf).data
              (tokenText "int" nm).data = true := hc
          rw [hint] at hc'
          exact Bool.false_ne_true hc')]
      apply List.find?_cons_of_pos
      show containsSub (pre ++ tokenText "path" nm ++ suf).data
        (tokenText "path" nm).data = true
      exact hpathk
  exact urlFor_resolve_one_token h pre suf kind nm ms m e v hpre hsuf hpreLt
    hsufLt hsegs hfindk hm hval.1 hval.2

/-- Witness for the amended C5: an int-kind route with literal text on both
sides of the token round-trips the value 42. -/
theorem claim_C5_witness :
    urlFor (⟨[],
        [⟨"/files/" ++ tokenText "int" "id" ++ "/raw", (1 : Nat), ["GET"], "f"⟩],
        [("f", ⟨"/files/" ++ tokenText "int" "id" ++ "/raw", 1, ["GET"], "f"⟩)]⟩
        : Router Nat) "f" [("id", PyVal.int 42)]
      = Except.ok ("/files/" ++ pyStr (PyVal.int 42) ++ "/raw") ∧
    resolve (⟨[],
        [⟨"/files/" ++ tokenText "int" "id" ++ "/raw", (1 : Nat), ["GET"], "f"⟩],
        [("f", ⟨"/files/" ++ tokenText "int" "id" ++ "/raw", 1, ["GET"], "f"⟩)]⟩
        : Router Nat) ("/files/" ++ pyStr (PyVal.int 42) ++ "/raw") "GET"
      = Except.ok (1, [("id", pvalOf (PyVal.int 42))]) := by
  exact claim_C5_amended 1 "/files/" "/raw" "int" "id" ["GET"] "GET" "f"
    (PyVal.int 42) (Or.inr (Or.inl rfl)) (by decide) (by decide) (by decide)
    (by decide) (by decide) (by decide) (by decide)
    ⟨fun _ => ⟨42, rfl⟩, fun hne => absurd rfl hne⟩

end JsWeb
